import Mathlib

/-!
# Verification development for the rsvm virtual machine core

Shallow embedding of the parts of the rsvm sources that the specification
claims talk about, together with theorems settling each claim.

Machine integers are modelled as `Int` values (two's-complement value range)
or as `Nat` bit patterns, with wrap-around written explicitly as `% 2^w`.
Rust arithmetic is embedded with the semantics of an overflow-unchecked
(release) build: `+`, `-`, `*` wrap, shift amounts are masked to the bit
width, `as` casts truncate / sign-extend.  Fallible code returns `Except`
or `Option`; `todo!(...)` (a Rust panic) is modelled as an explicit
`panicTodo` outcome.
-/

namespace Rsvm

/-! ## Two's-complement helpers -/

/-- Wrap an unbounded integer to the two's-complement `i32` value range
`[-2^31, 2^31)`. -/
def wrap32 (x : Int) : Int := (x + 2 ^ 31) % 2 ^ 32 - 2 ^ 31

/-- Wrap an unbounded integer to the two's-complement `i64` value range
`[-2^63, 2^63)`. -/
def wrap64 (x : Int) : Int := (x + 2 ^ 63) % 2 ^ 64 - 2 ^ 63

/-- The unsigned 32-bit pattern of an `i32` value (`v as u32`). -/
def toU32 (v : Int) : Int := v % 2 ^ 32

/-- The unsigned 64-bit pattern of an `i64` value (`v as u64`). -/
def toU64 (v : Int) : Int := v % 2 ^ 64

/-- Embeds `v & 0x1f` on a two's-complement `i32`: the low five bits, i.e.
`v mod 32` (the bit pattern of `v` is `v + k·2^32` and `32 ∣ 2^32`). -/
def and0x1f (v : Int) : Int := v % 32

/-- Embeds `v & 0x3f` on a two's-complement `i64`: the low six bits. -/
def and0x3f (v : Int) : Int := v % 64

/-- Rust `!v` on a signed two's-complement integer: bitwise not. -/
def rustNot (v : Int) : Int := -v - 1

/-- Rust release-mode `<<` on `i32`: the shift amount is reduced modulo the
bit width (`n as u32 % 32`), the shifted value wraps. -/
def rustShlI32 (v n : Int) : Int := wrap32 (v * 2 ^ (n % 32).toNat)

/-- Rust release-mode `>>` on `i32` (arithmetic shift): the shift amount is
reduced modulo the bit width; the result is floor division by `2^s`. -/
def rustShrI32 (v n : Int) : Int := Int.fdiv v (2 ^ (n % 32).toNat)

/-- Rust release-mode `<<` on `i64` (shift amount an `i32`). -/
def rustShlI64 (v n : Int) : Int := wrap64 (v * 2 ^ (n % 64).toNat)

/-- Rust release-mode `>>` on `i64` (shift amount an `i32`). -/
def rustShrI64 (v n : Int) : Int := Int.fdiv v (2 ^ (n % 64).toNat)

/-! ## Interpreter arithmetic opcodes (src/runtime/interpreter.rs)

The `case_label_num_arithmetic!` macro pops `val2`, then `val1`, and for the
division/remainder opcodes (`$divide_check == true`) executes
`todo!("throw ArithmeticException")` when `val2 == 0`; otherwise it pushes
`val1 $arith_op val2`.  A `todo!` is a Rust panic that aborts the
interpreter; no Java throwable is constructed.  We model the outcome of one
such handler on its two operands. -/

/-- Outcome of an arithmetic opcode handler on its two popped operands. -/
inductive ArithOutcome where
  | value (v : Int)
  | panicTodo (msg : String)
  deriving DecidableEq, Repr

/-- Rust `/` on `i32`: truncated division, wrapping on `i32::MIN / -1`. -/
def rustDivI32 (a b : Int) : Int := wrap32 (Int.tdiv a b)

/-- Rust `%` on `i32`: remainder with the sign of the dividend. -/
def rustRemI32 (a b : Int) : Int := wrap32 (Int.tmod a b)

/-- Rust `/` on `i64`. -/
def rustDivI64 (a b : Int) : Int := wrap64 (Int.tdiv a b)

/-- Rust `%` on `i64`. -/
def rustRemI64 (a b : Int) : Int := wrap64 (Int.tmod a b)

/-- Embeds `idiv` handler: `case_label_num_arithmetic!(idiv, JInt, /, true)`. -/
def idivStep (val1 val2 : Int) : ArithOutcome :=
  if val2 = 0 then .panicTodo "throw ArithmeticException"
  else .value (rustDivI32 val1 val2)

/-- Embeds `irem` handler: `case_label_num_arithmetic!(irem, JInt, %, true)`. -/
def iremStep (val1 val2 : Int) : ArithOutcome :=
  if val2 = 0 then .panicTodo "throw ArithmeticException"
  else .value (rustRemI32 val1 val2)

/-- Embeds `ldiv` handler: `case_label_num_arithmetic!(ldiv, JLong, /, true)`. -/
def ldivStep (val1 val2 : Int) : ArithOutcome :=
  if val2 = 0 then .panicTodo "throw ArithmeticException"
  else .value (rustDivI64 val1 val2)

/-- Embeds `lrem` handler: `case_label_num_arithmetic!(lrem, JLong, %, true)`. -/
def lremStep (val1 val2 : Int) : ArithOutcome :=
  if val2 = 0 then .panicTodo "throw ArithmeticException"
  else .value (rustRemI64 val1 val2)

/-! ## Interpreter shift opcodes (src/runtime/interpreter.rs)

`ishl`/`ishr` are `case_label_num_arithmetic!(…, JInt, <<|>> , false)`,
i.e. plain Rust shifts of `val1` by `val2`; `lshl`/`lshr` are
`case_label_num_diff_types_arithmetic!(…, JLong, JInt, <<|>>, false)`.
`iushr` and `lushr` have hand-written handlers that mask the shift amount
with `0x1f` / `0x3f` and emulate a logical right shift with a sign fixup. -/

/-- Embeds `ishl` handler body on its operands: `val1 << val2` on `i32`. -/
def ishlStep (val1 val2 : Int) : Int := rustShlI32 val1 val2

/-- Embeds `ishr` handler body on its operands: `val1 >> val2` on `i32`. -/
def ishrStep (val1 val2 : Int) : Int := rustShrI32 val1 val2

/-- Embeds `lshl` handler body: `val1 << val2`, `val1 : i64`, `val2 : i32`. -/
def lshlStep (val1 val2 : Int) : Int := rustShlI64 val1 val2

/-- Embeds `lshr` handler body: `val1 >> val2`, `val1 : i64`, `val2 : i32`. -/
def lshrStep (val1 val2 : Int) : Int := rustShrI64 val1 val2

/-- Embeds `iushr` handler body:
```
if val1 > 0      { val1 >> (val2 & 0x1f) }
else if val1 < 0 { (val1 >> (val2 & 0x1f)) + (2 << !(val2 & 0x1f)) }
else             { 0 }
``` -/
def iushrStep (val1 val2 : Int) : Int :=
  if val1 > 0 then rustShrI32 val1 (and0x1f val2)
  else if val1 < 0 then
    wrap32 (rustShrI32 val1 (and0x1f val2) + rustShlI32 2 (rustNot (and0x1f val2)))
  else 0

/-- Embeds `lushr` handler body (the `i64` analogue, addend `2i64 << !(val2 & 0x3f)`). -/
def lushrStep (val1 val2 : Int) : Int :=
  if val1 > 0 then rustShrI64 val1 (and0x3f val2)
  else if val1 < 0 then
    wrap64 (rustShrI64 val1 (and0x3f val2) + rustShlI64 2 (rustNot (and0x3f val2)))
  else 0

/-- Reference semantics: logical (unsigned) right shift of an `i32` value by
a masked shift distance, result re-read as `i32`. -/
def logicalShr32 (v n : Int) : Int := wrap32 (toU32 v / 2 ^ (n % 32).toNat)

/-- Reference semantics: logical right shift of an `i64` value. -/
def logicalShr64 (v n : Int) : Int := wrap64 (toU64 v / 2 ^ (n % 64).toNat)

/-! ## Lemmas about two's-complement wrapping -/

/-- Width-generic form of `wrap32` / `wrap64`. -/
def wrapW (w : Nat) (x : Int) : Int := (x + 2 ^ (w - 1)) % 2 ^ w - 2 ^ (w - 1)

lemma wrap32_eq_wrapW (x : Int) : wrap32 x = wrapW 32 x := rfl

lemma wrap64_eq_wrapW (x : Int) : wrap64 x = wrapW 64 x := rfl

lemma wrapW_congr (w : Nat) {x y : Int} (h : x % 2 ^ w = y % 2 ^ w) :
    wrapW w x = wrapW w y := by
  unfold wrapW
  rw [Int.add_emod, h, ← Int.add_emod]

lemma wrapW_emod (w : Nat) (x : Int) : wrapW w x % 2 ^ w = x % 2 ^ w := by
  unfold wrapW
  rw [Int.sub_emod, Int.emod_emod_of_dvd _ (dvd_refl _), ← Int.sub_emod,
    add_sub_cancel_right]

lemma wrapW_eq_self {w : Nat} (hw : 0 < w) {x : Int}
    (h1 : -2 ^ (w - 1) ≤ x) (h2 : x < 2 ^ (w - 1)) : wrapW w x = x := by
  unfold wrapW
  have hsplit : (2 : Int) ^ w = 2 ^ (w - 1) * 2 := by
    rw [← pow_succ]
    congr 1
    omega
  have h0 : 0 ≤ x + 2 ^ (w - 1) := by linarith
  have hlt : x + 2 ^ (w - 1) < 2 ^ w := by rw [hsplit]; linarith
  rw [Int.emod_eq_of_lt h0 hlt]
  ring

/-- The key identity behind the `iushr`/`lushr` handlers: the branchy
sign-fixup emulation computes the logical (unsigned) right shift by the
masked distance.  Stated width-generically over the raw arithmetic. -/
lemma ushr_emulation (w : Nat) (hw : 0 < w) (a n : Int)
    (hlo : -2 ^ (w - 1) ≤ a) (hhi : a < 2 ^ (w - 1)) :
    (if a > 0 then Int.fdiv a (2 ^ ((n % (w : Int)) % (w : Int)).toNat)
     else if a < 0 then
       wrapW w (Int.fdiv a (2 ^ ((n % (w : Int)) % (w : Int)).toNat) +
         wrapW w (2 * 2 ^ (((-(n % (w : Int)) - 1) % (w : Int)).toNat)))
     else 0)
    = wrapW w ((a % 2 ^ w) / 2 ^ ((n % (w : Int)).toNat)) := by
  have hwpos : (0 : Int) < (w : Int) := by exact_mod_cast hw
  have ht0 : 0 ≤ n % (w : Int) := Int.emod_nonneg n (by omega)
  have htw : n % (w : Int) < (w : Int) := Int.emod_lt_of_pos n hwpos
  have hidem : (n % (w : Int)) % (w : Int) = n % (w : Int) :=
    Int.emod_emod_of_dvd n (dvd_refl _)
  set s : Nat := (n % (w : Int)).toNat with hs
  have hsval : ((n % (w : Int))) = (s : Int) := by
    rw [hs]; exact (Int.toNat_of_nonneg ht0).symm
  have hsw : s < w := by omega
  have hone : 0 < w - 1 + 1 := by omega
  -- 2^(w-1) in terms of 2^w
  have hsplit : (2 : Int) ^ w = 2 ^ (w - 1) * 2 := by
    rw [← pow_succ]; congr 1; omega
  have hppos : (0 : Int) < 2 ^ s := by positivity
  rw [hidem, hsval]
  simp only [Int.toNat_natCast]
  rw [Int.fdiv_eq_ediv a (le_of_lt hppos)]
  rcases lt_trichotomy a 0 with hneg | hzero | hpos
  · -- a < 0 : the sign-fixup branch
    rw [if_neg (by omega), if_pos hneg]
    -- the `!s & mask` exponent is `w - 1 - s`
    have hnotmod : (-(s : Int) - 1) % (w : Int) = (w : Int) - 1 - s := by
      have h1 : (-(s : Int) - 1 + w) % (w : Int) = (-(s : Int) - 1) % (w : Int) := by
        have := Int.add_mul_emod_self_left (a := -(s : Int) - 1) (b := (w : Int)) (c := 1)
        simp only [mul_one] at this
        exact this
      have h2 : 0 ≤ -(s : Int) - 1 + w := by omega
      have h3 : -(s : Int) - 1 + w < (w : Int) := by omega
      rw [← h1, Int.emod_eq_of_lt h2 h3]
      ring
    have htn : ((-(s : Int) - 1) % (w : Int)).toNat = w - 1 - s := by
      rw [hnotmod]; omega
    rw [htn]
    have haddend : (2 : Int) * 2 ^ (w - 1 - s) = 2 ^ (w - s) := by
      rw [mul_comm, ← pow_succ]
      congr 1
      omega
    rw [haddend]
    -- drop the inner wrap by congruence
    have hcongr1 : wrapW w (a / 2 ^ s + wrapW w (2 ^ (w - s)))
        = wrapW w (a / 2 ^ s + 2 ^ (w - s)) := by
      apply wrapW_congr
      rw [Int.add_emod, wrapW_emod, ← Int.add_emod]
    rw [hcongr1]
    -- on the right: a % 2^w = a + 2^w, and division distributes over the
    -- exact multiple 2^w = 2^s * 2^(w-s)
    have hw2 : (2 : Int) ^ (w - 1) ≤ 2 ^ w := by
      rw [hsplit]; nlinarith [pow_pos (show (0:Int) < 2 by norm_num) (w - 1)]
    have hmod : a % 2 ^ w = a + 2 ^ w := by
      have h1 : (a + 2 ^ w) % 2 ^ w = a % 2 ^ w := by
        have := Int.add_mul_emod_self_left (a := a) (b := (2 : Int) ^ w) (c := 1)
        simp only [mul_one] at this
        exact this
      have h2 : 0 ≤ a + 2 ^ w := by linarith
      have h3 : a + 2 ^ w < 2 ^ w := by linarith
      rw [← h1, Int.emod_eq_of_lt h2 h3]
    rw [hmod]
    have hfact : a + 2 ^ w = a + 2 ^ s * 2 ^ (w - s) := by
      rw [← pow_add]
      congr 2
      omega
    rw [hfact, Int.add_mul_ediv_left a _ (ne_of_gt hppos)]
  · -- a = 0
    subst hzero
    rw [if_neg (by omega), if_neg (by omega)]
    rw [Int.zero_emod, Int.zero_ediv]
    rw [wrapW_eq_self hw (neg_nonpos_of_nonneg (by positivity)) (by positivity)]
  · -- a > 0 : plain arithmetic shift
    rw [if_pos hpos]
    have hmod : a % 2 ^ w = a := by
      apply Int.emod_eq_of_lt (le_of_lt hpos)
      calc a < 2 ^ (w - 1) := hhi
        _ ≤ 2 ^ w := by
          apply pow_le_pow_right₀ (by norm_num)
          omega
    rw [hmod]
    have hq0 : 0 ≤ a / 2 ^ s := Int.ediv_nonneg (le_of_lt hpos) (le_of_lt hppos)
    have hqle : a / 2 ^ s ≤ a := Int.ediv_le_self _ (le_of_lt hpos)
    rw [wrapW_eq_self hw (by linarith) (by linarith)]

/-!
## Claim C1

Spec: an integer division/remainder opcode whose divisor is zero throws
`java/lang/ArithmeticException`.  Code (interpreter.rs,
`case_label_num_arithmetic!`): the zero check executes
`todo!("throw ArithmeticException")`, a Rust panic that aborts the VM; no
throwable is created, and the division itself is not performed.
-/

/-- C1: for a zero divisor, every one of `idiv`, `irem`, `ldiv`, `lrem`
reaches the `todo!("throw ArithmeticException")` panic (and, in particular,
never produces a division value); the handler does not throw a Java
`ArithmeticException` object — no such outcome even exists in its code. -/
theorem claim_C1_div_by_zero_panics (v : Int) :
    idivStep v 0 = .panicTodo "throw ArithmeticException" ∧
    iremStep v 0 = .panicTodo "throw ArithmeticException" ∧
    ldivStep v 0 = .panicTodo "throw ArithmeticException" ∧
    lremStep v 0 = .panicTodo "throw ArithmeticException" := by
  refine ⟨?_, ?_, ?_, ?_⟩ <;> simp [idivStep, iremStep, ldivStep, lremStep]

/-!
## Claim C2

Int shifts use the shift distance masked with `0x1f`, long shifts with
`0x3f`.  For `iushr`/`lushr` this is the explicit `& 0x1f` / `& 0x3f` in
the handlers; for `ishl`/`ishr`/`lshl`/`lshr` it is the masking that the
host's unchecked shift semantics applies.  We also prove that the
`iushr`/`lushr` emulation really computes the logical right shift by the
masked distance.
-/

/-- C2: every int shift handler computes the same result when its shift
operand is replaced by `operand & 0x1f` (so a distance ≥ 32 behaves as the
masked distance), every long shift handler likewise with `& 0x3f`; and the
unsigned right shifts agree with the logical right shift by the masked
distance. -/
theorem claim_C2_shift_masking (a b n m : Int)
    (ha1 : -2 ^ 31 ≤ a) (ha2 : a < 2 ^ 31)
    (hb1 : -2 ^ 63 ≤ b) (hb2 : b < 2 ^ 63) :
    ishlStep a n = ishlStep a (and0x1f n) ∧
    ishrStep a n = ishrStep a (and0x1f n) ∧
    iushrStep a n = iushrStep a (and0x1f n) ∧
    lshlStep b m = lshlStep b (and0x3f m) ∧
    lshrStep b m = lshrStep b (and0x3f m) ∧
    lushrStep b m = lushrStep b (and0x3f m) ∧
    iushrStep a n = logicalShr32 a n ∧
    lushrStep b m = logicalShr64 b m := by
  have h32 : ∀ k : Int, and0x1f k % 32 = k % 32 := fun k =>
    Int.emod_emod_of_dvd k (dvd_refl _)
  have h64 : ∀ k : Int, and0x3f k % 64 = k % 64 := fun k =>
    Int.emod_emod_of_dvd k (dvd_refl _)
  refine ⟨?_, ?_, ?_, ?_, ?_, ?_, ?_, ?_⟩
  · simp only [ishlStep, rustShlI32, h32]
  · simp only [ishrStep, rustShrI32, h32]
  · have hnn : n % 32 % 32 = n % 32 := Int.emod_emod_of_dvd n (dvd_refl _)
    simp only [iushrStep, rustShrI32, and0x1f, rustShlI32, rustNot, hnn]
  · simp only [lshlStep, rustShlI64, h64]
  · simp only [lshrStep, rustShrI64, h64]
  · have hmm : m % 64 % 64 = m % 64 := Int.emod_emod_of_dvd m (dvd_refl _)
    simp only [lushrStep, rustShrI64, and0x3f, rustShlI64, rustNot, hmm]
  · have := ushr_emulation 32 (by norm_num) a n (by exact_mod_cast ha1) (by exact_mod_cast ha2)
    simpa [iushrStep, rustShrI32, and0x1f, rustShlI32, rustNot, wrap32_eq_wrapW,
      logicalShr32, toU32] using this
  · have := ushr_emulation 64 (by norm_num) b m (by exact_mod_cast hb1) (by exact_mod_cast hb2)
    simpa [lushrStep, rustShrI64, and0x3f, rustShlI64, rustNot, wrap64_eq_wrapW,
      logicalShr64, toU64] using this

/-- Witness for C2 at concrete inputs: shifting the int `-8` by `33`
equals shifting by `33 & 0x1f = 1`, etc. -/
theorem claim_C2_shift_masking_witness :
    -2 ^ 31 ≤ (-8 : Int) ∧ (-8 : Int) < 2 ^ 31 ∧
    -2 ^ 63 ≤ (-8 : Int) ∧ (-8 : Int) < 2 ^ 63 ∧
    (ishlStep (-8) 33 = ishlStep (-8) (and0x1f 33) ∧
     ishrStep (-8) 33 = ishrStep (-8) (and0x1f 33) ∧
     iushrStep (-8) 33 = iushrStep (-8) (and0x1f 33) ∧
     lshlStep (-8) 65 = lshlStep (-8) (and0x3f 65) ∧
     lshrStep (-8) 65 = lshrStep (-8) (and0x3f 65) ∧
     lushrStep (-8) 65 = lushrStep (-8) (and0x3f 65) ∧
     iushrStep (-8) 33 = logicalShr32 (-8) 33 ∧
     lushrStep (-8) 65 = logicalShr64 (-8) 65) :=
  ⟨by norm_num, by norm_num, by norm_num, by norm_num,
   claim_C2_shift_masking (-8) (-8) 33 65 (by norm_num) (by norm_num)
     (by norm_num) (by norm_num)⟩

/-! ## Class initialization state machine (src/object/class.rs)

`JClass::initializeCls`:
```
if self._init_state == Initialized { return Ok(()); }
if !self.is_linked() { self.link(thread)?; }
if self._init_state == Initializing { return Ok(()); }
self_ptr._init_state = Initializing;
if init_method.is_not_null() { call_static_void(<clinit>) }
self_ptr._init_state = Initialized;
```
`is_linked` is `_init_state as u8 >= Linked as u8`; `link` (on success)
ends by setting `_init_state = Linked`.  We track the per-class state plus
a ghost counter of `<clinit>` invocations; the body of `<clinit>` may issue
re-entrant `initializeCls` calls on the same class. -/

inductive ClassInitState where
  | created
  | linked
  | initializing
  | initialized
  deriving DecidableEq, Repr

/-- Per-class state: the `_init_state` byte, whether `init_method` is
non-null, and a ghost count of `<clinit>` invocations. -/
structure ClassState where
  initState : ClassInitState
  hasClinit : Bool
  clinitRuns : Nat
  deriving DecidableEq, Repr

/-- Embeds `is_linked`: `_init_state as u8 >= ClassInitState::Linked as u8`. -/
def isLinked (s : ClassState) : Bool := s.initState != .created

/-- Embeds `JClass::initializeCls` with the `<clinit>` body abstracted: `clinitBody`
is the state transformation performed by running `<clinit>` (beyond the
ghost-counter bump), and `linkOk` tells whether `self.link(thread)`
succeeds (on failure `?` propagates the error and nothing else happens). -/
def initializeWith (clinitBody : ClassState → ClassState) (linkOk : Bool)
    (s : ClassState) : ClassState :=
  if s.initState = .initialized then s
  else if !isLinked s && !linkOk then s
  else
    let s1 := if isLinked s then s else { s with initState := .linked }
    if s1.initState = .initializing then s1
    else
      let s2 := { s1 with initState := .initializing }
      let s3 := if s2.hasClinit then
          clinitBody { s2 with clinitRuns := s2.clinitRuns + 1 }
        else s2
      { s3 with initState := .initialized }

/-- One top-level `initializeCls` call whose `<clinit>` (if any) issues the
given list of re-entrant `initializeCls` calls on the same class.  The
re-entrant calls are given an empty `<clinit>` body: they run while the
state is `initializing`, so their own `<clinit>` branch is unreachable
(proved in `initializeWith_initializing` below). -/
def initializeCls (linkOk : Bool) (reentrant : List Bool) (s : ClassState) :
    ClassState :=
  initializeWith
    (fun t => reentrant.foldl (fun u lk => initializeWith (fun v => v) lk u) t)
    linkOk s

/-- A single-threaded sequence of `initializeCls` calls on one class. -/
def runInitCalls (calls : List (Bool × List Bool)) (s : ClassState) :
    ClassState :=
  calls.foldl (fun t c => initializeCls c.1 c.2 t) s

lemma initializeWith_initializing (f : ClassState → ClassState) (lk : Bool)
    {s : ClassState} (h : s.initState = .initializing) :
    initializeWith f lk s = s := by
  unfold initializeWith
  rw [if_neg (by simp [h])]
  have hl : isLinked s = true := by simp [isLinked, h]
  rw [if_neg (by simp [hl])]
  simp [hl, h]

lemma initializeWith_initialized (f : ClassState → ClassState) (lk : Bool)
    {s : ClassState} (h : s.initState = .initialized) :
    initializeWith f lk s = s := by
  unfold initializeWith
  rw [if_pos h]

lemma reentrant_foldl_id (re : List Bool) {t : ClassState}
    (h : t.initState = .initializing) :
    re.foldl (fun u lk => initializeWith (fun v => v) lk u) t = t := by
  induction re with
  | nil => rfl
  | cons lk rest ih =>
    simp only [List.foldl_cons, initializeWith_initializing _ lk h]
    exact ih

/-- The invariant maintained by every `initializeCls` call. -/
def ClinitInv (s : ClassState) : Prop :=
  s.clinitRuns ≤ 1 ∧
  ((s.initState = .created ∨ s.initState = .linked) → s.clinitRuns = 0)

/-- Evaluating a full `initializeCls` call on a class that is `Created`
(with a succeeding link) or `Linked`: the class ends `Initialized` and
`<clinit>` ran once iff the class has one. -/
lemma initializeWith_fresh (f : ClassState → ClassState) (lk : Bool)
    (st : ClassInitState) (hc : Bool) (runs : Nat)
    (h : st = .created ∨ st = .linked) (hlk : st = .linked ∨ lk = true) :
    initializeWith f lk ⟨st, hc, runs⟩ =
      { (if hc then f ⟨.initializing, hc, runs + 1⟩ else ⟨.initializing, hc, runs⟩) with
          initState := .initialized } := by
  rcases h with h | h <;> subst h
  · have hlk' : lk = true := by
      rcases hlk with h' | h'
      · exact absurd h' (by simp)
      · exact h'
    subst hlk'
    cases hc <;> simp [initializeWith, isLinked]
  · cases hc <;> cases lk <;> simp [initializeWith, isLinked]

lemma initializeCls_eval (lk : Bool) (re : List Bool) (st : ClassInitState)
    (hc : Bool) (runs : Nat)
    (h : st = .created ∨ st = .linked) (hlk : st = .linked ∨ lk = true) :
    initializeCls lk re ⟨st, hc, runs⟩ =
      ⟨.initialized, hc, runs + (if hc then 1 else 0)⟩ := by
  rw [initializeCls, initializeWith_fresh _ lk st hc runs h hlk]
  cases hc
  · simp
  · rw [if_pos rfl]
    simp only []
    rw [reentrant_foldl_id re rfl]
    simp

lemma initialize_preserves (lk : Bool) (re : List Bool) {s : ClassState}
    (h : ClinitInv s) : ClinitInv (initializeCls lk re s) := by
  obtain ⟨h1, h2⟩ := h
  obtain ⟨st, hc, runs⟩ := s
  cases hst : st with
  | initialized =>
    subst hst
    rw [initializeCls, initializeWith_initialized _ _ rfl]
    exact ⟨h1, fun hcc => h2 hcc⟩
  | initializing =>
    subst hst
    rw [initializeCls, initializeWith_initializing _ _ rfl]
    exact ⟨h1, fun hcc => h2 hcc⟩
  | created =>
    subst hst
    have hruns : runs = 0 := h2 (Or.inl rfl)
    subst hruns
    by_cases hlk : lk = true
    · rw [initializeCls_eval lk re _ hc 0 (Or.inl rfl) (Or.inr hlk)]
      constructor
      · cases hc <;> simp [ClassState.clinitRuns]
      · intro hcc
        rcases hcc with hcc | hcc <;> exact absurd hcc (by simp)
    · have hlk' : lk = false := by cases lk <;> simp_all
      subst hlk'
      rw [initializeCls, initializeWith]
      simp only [isLinked]
      refine ⟨?_, fun _ => ?_⟩ <;> simp
  | linked =>
    subst hst
    have hruns : runs = 0 := h2 (Or.inr rfl)
    subst hruns
    rw [initializeCls_eval lk re _ hc 0 (Or.inr rfl) (Or.inl rfl)]
    constructor
    · cases hc <;> simp [ClassState.clinitRuns]
    · intro hcc
      rcases hcc with hcc | hcc <;> exact absurd hcc (by simp)

/-!
## Claim C4

Over any single-threaded sequence of `initializeCls` calls on one class —
re-entrant calls from within its own `<clinit>` included — `<clinit>` is
invoked at most once, and a call made in state `Initializing` or
`Initialized` returns immediately without any state change.
-/

/-- C4: starting from a class that has never run `<clinit>`, any sequence
of `initializeCls` calls (each possibly issuing re-entrant calls from within
`<clinit>`) invokes `<clinit>` at most once; and any call made while the
class is `Initializing` or `Initialized` leaves the state unchanged (so in
particular does not invoke `<clinit>` again). -/
theorem claim_C4_clinit_at_most_once (s0 : ClassState)
    (calls : List (Bool × List Bool)) (h0 : s0.clinitRuns = 0) :
    (runInitCalls calls s0).clinitRuns ≤ 1 ∧
    (∀ (s : ClassState) (lk : Bool) (re : List Bool),
      s.initState = .initializing ∨ s.initState = .initialized →
      initializeCls lk re s = s) := by
  constructor
  · have hinv : ClinitInv (runInitCalls calls s0) := by
      have base : ClinitInv s0 := ⟨by omega, fun _ => h0⟩
      clear h0
      induction calls generalizing s0 with
      | nil => exact base
      | cons c rest ih =>
        have hstep : runInitCalls (c :: rest) s0
            = runInitCalls rest (initializeCls c.1 c.2 s0) := rfl
        rw [hstep]
        exact ih _ (initialize_preserves c.1 c.2 base)
    exact hinv.1
  · intro s lk re h
    cases h with
    | inl h => exact initializeWith_initializing _ _ h
    | inr h => exact initializeWith_initialized _ _ h

/-- Witness for C4: a fresh class with a `<clinit>` whose body issues two
re-entrant `initializeCls` calls, followed by two more top-level calls, runs
`<clinit>` exactly once (in particular at most once). -/
theorem claim_C4_clinit_at_most_once_witness :
    (ClassState.mk .created true 0).clinitRuns = 0 ∧
    (runInitCalls [(true, [true, true]), (true, []), (true, [])]
      (ClassState.mk .created true 0)).clinitRuns ≤ 1 :=
  ⟨rfl, (claim_C4_clinit_at_most_once (ClassState.mk .created true 0)
    [(true, [true, true]), (true, []), (true, [])] rfl).1⟩

/-! ## Class-file reader and the `parse_class` header checks
(src/classfile/reader.rs, src/classfile/parser.rs) -/

/-- The error kinds of `ClassLoadErr` (src/classfile/mod.rs). -/
inductive ClassLoadErr where
  | invalidFormat (msg : String)
  | verifyFailed (msg : String)
  | classLoaderInvalidLockState (msg : String)
  deriving DecidableEq, Repr

/-- A `ClassReader` over owned bytes: the byte vector and a cursor. -/
structure ClassReader where
  classBytes : List Nat
  offset : Nat
  deriving DecidableEq, Repr

/-- Embeds `ClassReader::read_ubyte2`: two big-endian bytes, or `InvalidFormat`
when fewer than two bytes remain. -/
def readUByte2 (r : ClassReader) : Except ClassLoadErr (Nat × ClassReader) :=
  if r.offset + 2 > r.classBytes.length then
    .error (.invalidFormat "out of range, expected 2 bytes")
  else
    .ok (r.classBytes.getD r.offset 0 * 2 ^ 8 + r.classBytes.getD (r.offset + 1) 0,
      { r with offset := r.offset + 2 })

/-- Embeds `ClassReader::read_ubyte4`: four big-endian bytes, or `InvalidFormat`
when fewer than four bytes remain. -/
def readUByte4 (r : ClassReader) : Except ClassLoadErr (Nat × ClassReader) :=
  if r.offset + 4 > r.classBytes.length then
    .error (.invalidFormat "out of range, expected 4 bytes")
  else
    .ok (r.classBytes.getD r.offset 0 * 2 ^ 24 +
      r.classBytes.getD (r.offset + 1) 0 * 2 ^ 16 +
      r.classBytes.getD (r.offset + 2) 0 * 2 ^ 8 +
      r.classBytes.getD (r.offset + 3) 0,
      { r with offset := r.offset + 4 })

/-- Embeds `CLASS_FILE_MAGIC` (parser.rs). -/
def classFileMagic : Nat := 0xCAFEBABE

/-- Embeds `ClassParser::major_version_is_support`: `45..=57`. -/
def majorVersionIsSupport (majorVersion : Nat) : Bool :=
  45 ≤ majorVersion && majorVersion ≤ 57

/-- The header prefix of `ClassParser::parse_class`: read and check the
magic, skip the minor version, read and check the major version (the
`match` arms mirror Rust's `?` operator).  Returns the reader positioned
after the header on success. -/
def parseClassHeader (r : ClassReader) : Except ClassLoadErr ClassReader :=
  match readUByte4 r with
  | .error e => .error e
  | .ok (magic, r1) =>
    if magic ≠ classFileMagic then
      .error (.invalidFormat "cannot identify the magic number")
    else
      match readUByte2 r1 with
      | .error e => .error e
      | .ok (_minorVersion, r2) =>
        match readUByte2 r2 with
        | .error e => .error e
        | .ok (majorVersion, r3) =>
          if !majorVersionIsSupport majorVersion then
            .error (.invalidFormat "unsupported class file version")
          else .ok r3

/-- The magic of a byte stream: its first four bytes, big-endian. -/
def magicOf (bytes : List Nat) : Nat :=
  bytes.getD 0 0 * 2 ^ 24 + bytes.getD 1 0 * 2 ^ 16 +
    bytes.getD 2 0 * 2 ^ 8 + bytes.getD 3 0

/-- The major version of a byte stream: bytes 6 and 7, big-endian. -/
def majorOf (bytes : List Nat) : Nat := bytes.getD 6 0 * 2 ^ 8 + bytes.getD 7 0

/-- Every failure of the header checks is an `InvalidFormat` error. -/
def headerErrIsInvalidFormat : Except ClassLoadErr ClassReader → Bool
  | .error (.invalidFormat _) => true
  | .error _ => false
  | .ok _ => true

/-!
## Claim C5

`parse_class` rejects with `InvalidFormat` whenever the magic differs from
`0xCAFEBABE` or the major version is outside `[45, 57]`, and proceeds past
the header checks exactly when the magic matches, the major version is in
range (and the eight header bytes are present at all — a shorter stream is
also rejected with `InvalidFormat`).
-/

/-- C5: the header prefix of `parse_class` succeeds exactly when the
stream has at least eight bytes, its first four bytes spell `0xCAFEBABE`,
and its major version lies in `[45, 57]`; and every failure — wrong magic,
unsupported version, or truncated stream — is an `InvalidFormat` error. -/
lemma readUByte4_start {bytes : List Nat} (h : 4 ≤ bytes.length) :
    readUByte4 ⟨bytes, 0⟩ = .ok (magicOf bytes, ⟨bytes, 4⟩) := by
  rw [readUByte4, if_neg (by simp; omega)]
  simp [magicOf]

lemma readUByte4_start_short {bytes : List Nat} (h : bytes.length < 4) :
    readUByte4 ⟨bytes, 0⟩ = .error (.invalidFormat "out of range, expected 4 bytes") := by
  rw [readUByte4, if_pos (by simp; omega)]

lemma readUByte2_at {bytes : List Nat} (k : Nat) (h : k + 2 ≤ bytes.length) :
    readUByte2 ⟨bytes, k⟩
      = .ok (bytes.getD k 0 * 2 ^ 8 + bytes.getD (k + 1) 0, ⟨bytes, k + 2⟩) := by
  rw [readUByte2, if_neg (by simp; omega)]

lemma readUByte2_at_short {bytes : List Nat} (k : Nat) (h : bytes.length < k + 2) :
    readUByte2 ⟨bytes, k⟩
      = .error (.invalidFormat "out of range, expected 2 bytes") := by
  rw [readUByte2, if_pos (by simp; omega)]

theorem claim_C5_header_checks (bytes : List Nat) :
    ((parseClassHeader ⟨bytes, 0⟩).isOk = true ↔
      (8 ≤ bytes.length ∧ magicOf bytes = classFileMagic ∧
        45 ≤ majorOf bytes ∧ majorOf bytes ≤ 57)) ∧
    headerErrIsInvalidFormat (parseClassHeader ⟨bytes, 0⟩) = true := by
  by_cases h4 : 4 ≤ bytes.length
  · rw [parseClassHeader, readUByte4_start h4]
    simp only []
    by_cases hm : magicOf bytes = classFileMagic
    · rw [if_neg (by simp [hm])]
      by_cases h6 : 6 ≤ bytes.length
      · rw [readUByte2_at 4 (by omega)]
        simp only []
        rw [show (4 : Nat) + 2 = 6 from rfl]
        by_cases h8 : 8 ≤ bytes.length
        · rw [readUByte2_at 6 (by omega)]
          simp only []
          rw [show (6 : Nat) + 1 = 7 from rfl,
            show bytes.getD 6 0 * 2 ^ 8 + bytes.getD 7 0 = majorOf bytes from rfl]
          by_cases hv : 45 ≤ majorOf bytes ∧ majorOf bytes ≤ 57
          · rw [if_neg (by simp [majorVersionIsSupport]; omega)]
            simp [Except.isOk, Except.toBool, headerErrIsInvalidFormat, h8, hm, hv.1, hv.2]
          · rw [if_pos (by simp [majorVersionIsSupport]; omega)]
            simp only [Except.isOk, Except.toBool, headerErrIsInvalidFormat]
            refine ⟨?_, by trivial⟩
            simp only [Bool.false_eq_true, false_iff]
            intro hcontra
            exact hv ⟨hcontra.2.2.1, hcontra.2.2.2⟩
        · rw [readUByte2_at_short 6 (by omega)]
          simp only [Except.isOk, Except.toBool, headerErrIsInvalidFormat]
          refine ⟨?_, by trivial⟩
          simp only [Bool.false_eq_true, false_iff]
          intro hcontra
          omega
      · rw [readUByte2_at_short 4 (by omega)]
        simp only [Except.isOk, Except.toBool, headerErrIsInvalidFormat]
        refine ⟨?_, by trivial⟩
        simp only [Bool.false_eq_true, false_iff]
        intro hcontra
        omega
    · rw [if_pos (by simp [hm])]
      simp only [Except.isOk, Except.toBool, headerErrIsInvalidFormat]
      refine ⟨?_, by trivial⟩
      simp only [Bool.false_eq_true, false_iff]
      intro hcontra
      exact hm hcontra.2.1
  · rw [parseClassHeader, readUByte4_start_short (by omega)]
    simp only [Except.isOk, Except.toBool, headerErrIsInvalidFormat]
    refine ⟨?_, by trivial⟩
    simp only [Bool.false_eq_true, false_iff]
    intro hcontra
    omega

/-! ## Symbol and string hashing (src/object/string.rs)

`HeapString::hash_utf8` iterates over the **code points** of the UTF-8
content (`content.chars()`); `hash_utf16_ptr` iterates over the **UTF-16
code units**.  Both apply `h = (h ^ unit) * 0x01000193` on `i32` with
wrapping multiplication; we compute on 32-bit patterns.  `to_utf16` is
Rust's `str::encode_utf16`, which encodes supplementary code points as
surrogate pairs. -/

/-- One step of the FNV-like hash on `i32` bit patterns:
`h = (h ^ cp) * 0x01000193` with wrapping multiplication. -/
def hashStep (h cp : Nat) : Nat := ((h ^^^ cp) * 0x01000193) % 2 ^ 32

/-- Embeds `HeapString::hash_utf8` over the sequence of code points. -/
def hashUtf8 (codePoints : List Nat) : Nat := codePoints.foldl hashStep 0

/-- Embeds `HeapString::hash_utf16_ptr` over the sequence of UTF-16 code units. -/
def hashUtf16 (units : List Nat) : Nat := units.foldl hashStep 0

/-- Embeds `str::encode_utf16` on one code point: itself if in the BMP, otherwise
the surrogate pair. -/
def encodeUtf16Char (cp : Nat) : List Nat :=
  if cp < 0x10000 then [cp]
  else [0xD800 + (cp - 0x10000) / 0x400, 0xDC00 + (cp - 0x10000) % 0x400]

/-- Embeds `HeapString::to_utf16`: `self.as_str().encode_utf16().collect()`. -/
def toUtf16 (codePoints : List Nat) : List Nat :=
  codePoints.flatMap encodeUtf16Char

/-!
## Claim C6

The claim asserts `hash_utf16(s.to_utf16()) == s.hash` for **every**
symbol, "including those containing code points outside the basic
multilingual plane".  A symbol's stored hash is `hash_utf8` of its code
points; for a supplementary code point `to_utf16` yields two surrogate
units, which `hash_utf16` hashes individually, so the two hashes differ.
The identity does hold for symbols whose code points all lie in the BMP.
-/

/-- C6 counterexample: for the symbol consisting of the single
supplementary code point U+10000, hashing the UTF-16 encoding does not
give the symbol's stored (UTF-8 code-point) hash. -/
theorem claim_C6_counterexample :
    hashUtf16 (toUtf16 [0x10000]) ≠ hashUtf8 [0x10000] := by decide

/-- C6 (amended): for every symbol all of whose code points lie in the
basic multilingual plane (`< 0x10000`), hashing its UTF-16 encoding equals
its stored hash: `hash_utf16 (to_utf16 cps) = hash_utf8 cps`. -/
theorem claim_C6_bmp_hash_agrees (codePoints : List Nat)
    (h : ∀ c ∈ codePoints, c < 0x10000) :
    hashUtf16 (toUtf16 codePoints) = hashUtf8 codePoints := by
  have key : ∀ (cps : List Nat), (∀ c ∈ cps, c < 0x10000) → ∀ a : Nat,
      (cps.flatMap encodeUtf16Char).foldl hashStep a = cps.foldl hashStep a := by
    intro cps
    induction cps with
    | nil => intro _ a; rfl
    | cons c rest ih =>
      intro hall a
      have hc : c < 0x10000 := hall c (List.mem_cons_self c rest)
      rw [List.flatMap_cons, List.foldl_append, List.foldl_cons]
      rw [encodeUtf16Char, if_pos hc]
      simp only [List.foldl_cons, List.foldl_nil]
      exact ih (fun x hx => hall x (List.mem_cons_of_mem c hx)) _
  exact key codePoints h 0

/-- Witness for C6 (amended) on the BMP symbol `"Hi"` (code points
`[72, 105]`). -/
theorem claim_C6_bmp_hash_agrees_witness :
    (∀ c ∈ [72, 105], c < 0x10000) ∧
    hashUtf16 (toUtf16 [72, 105]) = hashUtf8 [72, 105] :=
  ⟨by decide, claim_C6_bmp_hash_agrees [72, 105] (by decide)⟩

/-! ## Handle area and handle scopes (src/handle.rs)

The handle area is a chunked sequence of address slots: `raw_handles` is a
vector of heap-allocated chunks of `HANDLES_SIZE` slots each, and `area`
holds the bump cursor `offset`, its `limit`, and `chunks`, the number of
chunks pushed since the current scope was entered.  `HandleScope::new`
saves the whole `area` and resets `chunks` to 0; `Drop` pops `chunks`
chunks from `raw_handles` and restores the saved `area`.  We model raw
pointers as natural-number addresses (slot-granular) and each chunk by its
base address; slot contents are not part of the observable area state. -/

/-- Embeds `HANDLES_SIZE`: `size_of::<RawHandle>() * 128` slots per chunk. -/
def handlesSize : Nat := 8 * 128

/-- The `HandleArea` struct: bump cursor, limit, chunks-in-scope count. -/
structure HandleArea where
  offset : Nat
  limit : Nat
  chunks : Nat
  deriving DecidableEq, Repr

/-- The `HandleData` struct: the area plus the chunk vector (each chunk
represented by its base address). -/
structure HandleData where
  area : HandleArea
  rawHandles : List Nat
  deriving DecidableEq, Repr

/-- Embeds `HandleArea::available`: `offset != limit`. -/
def areaAvailable (a : HandleArea) : Bool := a.offset != a.limit

/-- Embeds `HandleScope::make_handle`: when the area is exhausted, push a fresh
chunk (`freshBase` models the allocator's address choice), point the area
at it and bump `chunks`; then store through the slot and `reserve(1)`.
Returns the new data and the handle (the slot address). -/
def makeHandle (freshBase : Nat) (d : HandleData) : HandleData × Nat :=
  if !areaAvailable d.area then
    (HandleData.mk
      (HandleArea.mk (freshBase + 1) (freshBase + handlesSize) (d.area.chunks + 1))
      (d.rawHandles ++ [freshBase]), freshBase)
  else
    ({ d with area := { d.area with offset := d.area.offset + 1 } }, d.area.offset)

/-- Embeds `HandleScope::new`: record the current area, then `new_area` (which
only resets `chunks` to 0).  Returns (scope save, new data). -/
def scopeEnter (d : HandleData) : HandleArea × HandleData :=
  (d.area, { d with area := { d.area with chunks := 0 } })

/-- Embeds `Drop for HandleScope`: pop `area.chunks` chunks, restore the saved
area. -/
def scopeDrop (saved : HandleArea) (d : HandleData) : HandleData :=
  { area := saved,
    rawHandles := d.rawHandles.take (d.rawHandles.length - d.area.chunks) }

/-- A sequence of handle allocations (with the allocator's fresh chunk
base for each potential chunk allocation). -/
def runMakeHandles (bases : List Nat) (d : HandleData) : HandleData :=
  bases.foldl (fun t b => (makeHandle b t).1) d

lemma makeHandle_shape (b : Nat) (d : HandleData) :
    ∃ new : List Nat,
      (makeHandle b d).1.rawHandles = d.rawHandles ++ new ∧
      (makeHandle b d).1.area.chunks = d.area.chunks + new.length := by
  rw [makeHandle]
  by_cases h : areaAvailable d.area
  · exact ⟨[], by simp [h]⟩
  · exact ⟨[b], by simp [h]⟩

lemma runMakeHandles_shape (bases : List Nat) (d : HandleData) :
    ∃ new : List Nat,
      (runMakeHandles bases d).rawHandles = d.rawHandles ++ new ∧
      (runMakeHandles bases d).area.chunks = d.area.chunks + new.length := by
  induction bases generalizing d with
  | nil => exact ⟨[], by simp [runMakeHandles]⟩
  | cons b rest ih =>
    have hstep : runMakeHandles (b :: rest) d
        = runMakeHandles rest (makeHandle b d).1 := rfl
    obtain ⟨n1, hr1, hc1⟩ := makeHandle_shape b d
    obtain ⟨n2, hr2, hc2⟩ := ih (makeHandle b d).1
    refine ⟨n1 ++ n2, ?_, ?_⟩
    · rw [hstep, hr2, hr1, List.append_assoc]
    · rw [hstep, hc2, hc1, List.length_append]
      omega

/-!
## Claim C8

Exiting (dropping) a handle scope restores the thread's handle-area offset
— in fact the whole `HandleData` — to exactly its state at scope entry,
whatever handle allocations happened inside the scope.
-/

/-- C8: for every handle-data state and every sequence of handle
allocations performed inside a scope, dropping the scope restores the
handle data — the area (offset, limit, chunks) and the chunk vector —
to exactly its value at scope entry. -/
theorem claim_C8_handle_scope_restores (d0 : HandleData) (bases : List Nat) :
    scopeDrop (scopeEnter d0).1 (runMakeHandles bases (scopeEnter d0).2) = d0 := by
  obtain ⟨new, hr, hc⟩ := runMakeHandles_shape bases (scopeEnter d0).2
  have hsaved : (scopeEnter d0).1 = d0.area := rfl
  have hr' : (runMakeHandles bases (scopeEnter d0).2).rawHandles
      = d0.rawHandles ++ new := by
    rw [hr]; rfl
  have hc' : (runMakeHandles bases (scopeEnter d0).2).area.chunks = new.length := by
    rw [hc]; simp [scopeEnter]
  rw [scopeDrop, hsaved, hr', hc', List.length_append]
  have htake : (d0.rawHandles ++ new).take
      (d0.rawHandles.length + new.length - new.length) = d0.rawHandles := by
    rw [Nat.add_sub_cancel, List.take_left]
  rw [htake]

/-! ## Bump-pointer spaces (src/memory/space.rs)

`Space::alloc` under the `free` mutex:
```
if free.uoffset(size) <= self.end {
    let result = *free;
    *free = result.offset(size as isize);
    libc::memset(result, 0, size);
    return result;
} else { return Address::null(); }
```
Addresses are modelled as naturals below `2^64`; `uoffset` is pointer
addition, which wraps at the address width, so the no-overflow side
condition `free + size < 2^64` is made explicit.  The byte contents of the
space are carried as a map so that the `memset` is observable. -/

/-- A `Space`: `[start, end)` bounds, the bump pointer `free`, and the
byte contents of memory. -/
structure Space where
  start : Nat
  endAddr : Nat
  free : Nat
  mem : Nat → Nat

/-- Embeds `Space::alloc`: returns the advanced space and the result address
(`0` models `Address::null()`). -/
def spaceAlloc (s : Space) (size : Nat) : Space × Nat :=
  if (s.free + size) % 2 ^ 64 ≤ s.endAddr then
    (Space.mk s.start s.endAddr ((s.free + size) % 2 ^ 64)
      (fun a => if s.free ≤ a ∧ a < s.free + size then 0 else s.mem a),
      s.free)
  else (s, 0)

/-!
## Claim C9

`Space::alloc(size)`: if `free + size` does not exceed `end`, it returns
the previous `free`, advances `free` by exactly `size`, and zero-fills the
returned `size` bytes; otherwise it returns null and leaves `free`
unchanged.
-/

/-- C9: assuming the addition `free + size` does not wrap at the pointer
width, `Space::alloc` either (when `free + size ≤ end`) returns the old
`free`, advances `free` by exactly `size`, zero-fills exactly the returned
`size` bytes and leaves all other memory unchanged, or (otherwise) returns
the null address with the whole space state unchanged. -/
theorem claim_C9_space_alloc (s : Space) (size : Nat)
    (hnowrap : s.free + size < 2 ^ 64) :
    (s.free + size ≤ s.endAddr →
      (spaceAlloc s size).2 = s.free ∧
      (spaceAlloc s size).1.free = s.free + size ∧
      (∀ i < size, (spaceAlloc s size).1.mem (s.free + i) = 0) ∧
      (∀ a, (a < s.free ∨ s.free + size ≤ a) →
        (spaceAlloc s size).1.mem a = s.mem a) ∧
      (spaceAlloc s size).1.start = s.start ∧
      (spaceAlloc s size).1.endAddr = s.endAddr) ∧
    (¬ s.free + size ≤ s.endAddr →
      (spaceAlloc s size).2 = 0 ∧ (spaceAlloc s size).1 = s) := by
  have hmod : (s.free + size) % 2 ^ 64 = s.free + size := Nat.mod_eq_of_lt hnowrap
  constructor
  · intro hfits
    rw [spaceAlloc, if_pos (by rw [hmod]; exact hfits)]
    refine ⟨rfl, by show (s.free + size) % 2 ^ 64 = s.free + size; exact hmod,
      ?_, ?_, rfl, rfl⟩
    · intro i hi
      simp only []
      rw [if_pos (by omega)]
    · intro a ha
      simp only []
      rw [if_neg (by omega)]
  · intro hfits
    rw [spaceAlloc, if_neg (by rw [hmod]; exact hfits)]
    exact ⟨rfl, rfl⟩

/-- Witness for C9: a concrete space `[100, 164)` with `free = 100`,
allocating 8 bytes. -/
theorem claim_C9_space_alloc_witness :
    (100 + 8 < 2 ^ 64) ∧
    (100 + 8 ≤ 164 →
      (spaceAlloc ⟨100, 164, 100, fun _ => 7⟩ 8).2 = 100 ∧
      (spaceAlloc ⟨100, 164, 100, fun _ => 7⟩ 8).1.free = 100 + 8 ∧
      (∀ i < 8, (spaceAlloc ⟨100, 164, 100, fun _ => 7⟩ 8).1.mem (100 + i) = 0) ∧
      (∀ a, (a < 100 ∨ 100 + 8 ≤ a) →
        (spaceAlloc ⟨100, 164, 100, fun _ => 7⟩ 8).1.mem a
          = (Space.mk 100 164 100 (fun _ => 7)).mem a) ∧
      (spaceAlloc ⟨100, 164, 100, fun _ => 7⟩ 8).1.start = 100 ∧
      (spaceAlloc ⟨100, 164, 100, fun _ => 7⟩ 8).1.endAddr = 164) :=
  ⟨by norm_num,
   (claim_C9_space_alloc ⟨100, 164, 100, fun _ => 7⟩ 8 (by norm_num)).1⟩

/-! ## Descriptor parser and bootstrap class loading
(src/classfile/descriptor.rs, src/classfile/class_loader.rs)

Classes are modelled by their addresses (`Nat`, with `0` for a null
`JClassPtr`).  The preloaded primitive and primitive-array classes live in
a record; a `class_symbol` (an interned symbol for a name slice) is
modelled by the byte slice itself.  Byte values appear as ASCII codes
(`66 = 'B'`, `67 = 'C'`, `68 = 'D'`, `70 = 'F'`, `73 = 'I'`, `74 = 'J'`,
`83 = 'S'`, `90 = 'Z'`, `86 = 'V'`, `76 = 'L'`, `91 = '['`, `59 = ';'`,
`40 = '('`, `41 = ')'`). -/

/-- The preloaded classes the descriptor parser resolves against. -/
structure PreloadedClasses where
  byteCls : Nat
  charCls : Nat
  doubleCls : Nat
  floatCls : Nat
  intCls : Nat
  longCls : Nat
  shortCls : Nat
  boolCls : Nat
  voidCls : Nat
  byteArrCls : Nat
  charArrCls : Nat
  doubleArrCls : Nat
  floatArrCls : Nat
  intArrCls : Nat
  longArrCls : Nat
  shortArrCls : Nat
  boolArrCls : Nat
  deriving DecidableEq, Repr

/-- The `Descriptor` enum.  `symbolD` carries the name slice that
`class_symbol` would intern. -/
inductive RDescriptor where
  | resolvedClass (cls : Nat) (size : Nat)
  | symbolD (name : List Nat) (refSize : Nat)
  | openParenthesis
  | closeParenthesis
  | invalidDescriptor
  | endOfDescriptor
  deriving DecidableEq, Repr

/-- Embeds `DescriptorParser::class_symbol(start, end)`: the inclusive byte slice
`value[start ..= end]` (interning through the symbol table is dropped; the
slice identifies the symbol). -/
def classSymbolSlice (value : List Nat) (start endIdx : Nat) : List Nat :=
  (value.drop start).take (endIdx + 1 - start)

/-- The scan inside the `b'L'` arm of `next_class`: advance until a `';'`
(`59`) and return its index, or `none` if the run ends first. -/
def lScan (value : List Nat) (offset : Nat) : Option Nat :=
  if _h : value.length ≤ offset then none
  else if value.getD offset 0 ≠ 59 then lScan value (offset + 1)
  else some offset
termination_by value.length - offset
decreasing_by omega

/-- Embeds `DescriptorParser::next_class(prev_offset)`.  Returns the descriptor
and the parser offset after the call.  `prevOffset = none` models
`prev_offset == -1`; `curArr` is the `cur_arr` flag. -/
def nextClass (pc : PreloadedClasses) (value : List Nat) (offset : Nat)
    (prevOffset : Option Nat) (curArr : Bool) : RDescriptor × Nat :=
  if _h : value.length ≤ offset then (.endOfDescriptor, offset)
  else
    let symbolStart := match prevOffset with | none => offset | some p => p
    let prefixB := value.getD offset 0
    let offset1 := offset + 1
    if prefixB = 66 then
      (match prevOffset with
       | none => (.resolvedClass pc.byteCls 1, offset1)
       | some _ => (.symbolD (classSymbolSlice value symbolStart (offset1 - 1)) 8, offset1))
    else if prefixB = 67 then
      (match prevOffset with
       | none => (.resolvedClass pc.charCls 2, offset1)
       | some _ => (.symbolD (classSymbolSlice value symbolStart (offset1 - 1)) 8, offset1))
    else if prefixB = 68 then
      (match prevOffset with
       | none => (.resolvedClass pc.doubleCls 8, offset1)
       | some _ => (.symbolD (classSymbolSlice value symbolStart (offset1 - 1)) 8, offset1))
    else if prefixB = 70 then
      (match prevOffset with
       | none => (.resolvedClass pc.floatCls 4, offset1)
       | some _ => (.symbolD (classSymbolSlice value symbolStart (offset1 - 1)) 8, offset1))
    else if prefixB = 73 then
      (match prevOffset with
       | none => (.resolvedClass pc.intCls 4, offset1)
       | some _ => (.symbolD (classSymbolSlice value symbolStart (offset1 - 1)) 8, offset1))
    else if prefixB = 74 then
      (match prevOffset with
       | none => (.resolvedClass pc.longCls 8, offset1)
       | some _ => (.symbolD (classSymbolSlice value symbolStart (offset1 - 1)) 8, offset1))
    else if prefixB = 83 then
      (match prevOffset with
       | none => (.resolvedClass pc.shortCls 2, offset1)
       | some _ => (.symbolD (classSymbolSlice value symbolStart (offset1 - 1)) 8, offset1))
    else if prefixB = 90 then
      (match prevOffset with
       | none => (.resolvedClass pc.boolCls 1, offset1)
       | some _ => (.symbolD (classSymbolSlice value symbolStart (offset1 - 1)) 8, offset1))
    else if prefixB = 86 then
      (match prevOffset with
       | none => (.resolvedClass pc.voidCls 0, offset1)
       | some _ => (.invalidDescriptor, offset1))
    else if prefixB = 76 then
      (match lScan value offset1 with
       | none => (.invalidDescriptor, value.length)
       | some semIdx =>
         if curArr then
           (.symbolD (classSymbolSlice value symbolStart semIdx) 8, semIdx + 1)
         else
           (.symbolD (classSymbolSlice value (symbolStart + 1) (semIdx - 1)) 8, semIdx + 1))
    else if prefixB = 91 then
      let fallback := nextClass pc value offset1 (some symbolStart) true
      if prevOffset = none ∧ value.length = 2 then
        let p := value.getD offset1 0
        if p = 66 then (.resolvedClass pc.byteArrCls 8, offset1)
        else if p = 67 then (.resolvedClass pc.charArrCls 8, offset1)
        else if p = 68 then (.resolvedClass pc.doubleArrCls 8, offset1)
        else if p = 70 then (.resolvedClass pc.floatArrCls 8, offset1)
        else if p = 73 then (.resolvedClass pc.intArrCls 8, offset1)
        else if p = 74 then (.resolvedClass pc.longArrCls 8, offset1)
        else if p = 83 then (.resolvedClass pc.shortArrCls 8, offset1)
        else if p = 90 then (.resolvedClass pc.boolArrCls 8, offset1)
        else if p = 86 then (.invalidDescriptor, offset1)
        else fallback
      else fallback
    else if prefixB = 41 then (.closeParenthesis, offset1)
    else if prefixB = 40 then (.openParenthesis, offset1)
    else (.invalidDescriptor, offset1)
termination_by value.length - offset
decreasing_by omega

/-- What a `load_class_depth` call returned and which machinery it
touched. -/
structure LoadTrace where
  result : Option Nat
  registryConsulted : Bool
  classpathOpened : Bool
  deriving DecidableEq, Repr

/-- Embeds `BootstrapClassLoader::load_class_depth`: the one-character primitive
fast path, then `find_class` (the loaded-class registry), then
`do_load_class` (the classpath walk, abstracted to its result
`doLoadResult`). -/
def loadClassDepth (pc : PreloadedClasses) (registry : List Nat → Option Nat)
    (doLoadResult : Option Nat) (className : List Nat) : LoadTrace :=
  let rest : LoadTrace :=
    match registry className with
    | some found => ⟨some found, true, false⟩
    | none => ⟨doLoadResult, true, true⟩
  if className.length = 1 then
    match (nextClass pc className 0 none false).1 with
    | .resolvedClass cls _ => if cls ≠ 0 then ⟨some cls, false, false⟩ else rest
    | _ => rest
  else rest

/-!
## Claim C10

For a one-character class name that is a primitive descriptor letter,
`load_class` returns the preloaded primitive class directly: the
loaded-class registry is not consulted and no classpath entry is opened.
-/

/-- C10: for each primitive descriptor letter `B C D F I J S Z V` (as a
one-character class name), and for **any** registry contents and any
classpath outcome, `load_class_depth` returns the corresponding preloaded
primitive class without consulting the registry and without opening a
classpath entry — provided the preloaded primitive classes are non-null. -/
theorem claim_C10_primitive_fast_path (pc : PreloadedClasses)
    (registry : List Nat → Option Nat) (doLoadResult : Option Nat)
    (hB : pc.byteCls ≠ 0) (hC : pc.charCls ≠ 0) (hD : pc.doubleCls ≠ 0)
    (hF : pc.floatCls ≠ 0) (hI : pc.intCls ≠ 0) (hJ : pc.longCls ≠ 0)
    (hS : pc.shortCls ≠ 0) (hZ : pc.boolCls ≠ 0) (hV : pc.voidCls ≠ 0) :
    loadClassDepth pc registry doLoadResult [66] = ⟨some pc.byteCls, false, false⟩ ∧
    loadClassDepth pc registry doLoadResult [67] = ⟨some pc.charCls, false, false⟩ ∧
    loadClassDepth pc registry doLoadResult [68] = ⟨some pc.doubleCls, false, false⟩ ∧
    loadClassDepth pc registry doLoadResult [70] = ⟨some pc.floatCls, false, false⟩ ∧
    loadClassDepth pc registry doLoadResult [73] = ⟨some pc.intCls, false, false⟩ ∧
    loadClassDepth pc registry doLoadResult [74] = ⟨some pc.longCls, false, false⟩ ∧
    loadClassDepth pc registry doLoadResult [83] = ⟨some pc.shortCls, false, false⟩ ∧
    loadClassDepth pc registry doLoadResult [90] = ⟨some pc.boolCls, false, false⟩ ∧
    loadClassDepth pc registry doLoadResult [86] = ⟨some pc.voidCls, false, false⟩ := by
  refine ⟨?_, ?_, ?_, ?_, ?_, ?_, ?_, ?_, ?_⟩ <;>
    simp [loadClassDepth, nextClass, hB, hC, hD, hF, hI, hJ, hS, hZ, hV]

/-- Witness for C10 at a concrete preloaded-class table (addresses 1–17)
and an arbitrary registry. -/
theorem claim_C10_primitive_fast_path_witness :
    ((⟨1, 2, 3, 4, 5, 6, 7, 8, 9, 10, 11, 12, 13, 14, 15, 16, 17⟩ :
        PreloadedClasses).byteCls ≠ 0) ∧
    loadClassDepth ⟨1, 2, 3, 4, 5, 6, 7, 8, 9, 10, 11, 12, 13, 14, 15, 16, 17⟩
      (fun _ => none) none [73]
      = ⟨some (5 : Nat), false, false⟩ :=
  ⟨by decide,
   (claim_C10_primitive_fast_path
      ⟨1, 2, 3, 4, 5, 6, 7, 8, 9, 10, 11, 12, 13, 14, 15, 16, 17⟩
      (fun _ => none) none
      (by decide) (by decide) (by decide) (by decide) (by decide)
      (by decide) (by decide) (by decide) (by decide)).2.2.2.2.1⟩

/-! ## The `multianewarray` handler (src/runtime/interpreter.rs)

The handler reads the constant-pool index (two operand bytes) and the
`dimensions` count (one operand byte), resolves the array class, reads the
outermost length with `stack.peek_int(dimensions - 1)`, allocates the
outer array, recursively allocates the inner dimensions
(`create_dimension_array`), and then pushes the outer array with
`stack.push_jobj`.  Neither the handler nor `create_dimension_array` ever
pops the `dimensions` length operands: all reads are `peek_int`.

The operand stack is a list of slots (top first).  Array classes are
addresses with an abstract `componentOf` map; a heap records every
`JArray::new` allocation `(address, length, class)` and every
`parent.set(index, child)` store. -/

/-- Embeds `Stack::peek_int(index)`: the slot `index` positions below the top;
no stack pointer adjustment. -/
def peekInt (stack : List Int) (index : Nat) : Int := stack.getD index 0

/-- The allocation/store log of the array heap. -/
structure ArrHeap where
  nextAddr : Nat
  arrays : List (Nat × Int × Nat)
  sets : List (Nat × Nat × Nat)
  deriving DecidableEq, Repr

/-- Embeds `JArray::new(length, class, thread)`: allocate at the next address. -/
def jarrayNew (h : ArrHeap) (length : Int) (cls : Nat) : ArrHeap × Nat :=
  (⟨h.nextAddr + 1, h.arrays ++ [(h.nextAddr, length, cls)], h.sets⟩, h.nextAddr)

/-- Embeds `parent_dimension.set(parent_idx, current_dimension_arr)`. -/
def recordSet (h : ArrHeap) (parent idx child : Nat) : ArrHeap :=
  ⟨h.nextAddr, h.arrays, h.sets ++ [(parent, idx, child)]⟩

mutual

/-- Embeds `Interpreter::create_dimension_array`: for each slot of the parent
array allocate a child of this dimension's length (read by `peek_int`,
not popped) and, while not at the innermost dimension, recurse along the
component type. -/
def createDimensionArray (componentOf : Nat → Nat) (stack : List Int)
    (dimensionIdx dimensionsEndIdx : Nat) (parentAddr : Nat) (parentLen : Int)
    (curCls : Nat) (h : ArrHeap) : ArrHeap :=
  createDimLoop componentOf stack dimensionIdx dimensionsEndIdx parentAddr
    curCls h 0 parentLen.toNat
termination_by (dimensionsEndIdx + 1 - dimensionIdx, parentLen.toNat + 1)
decreasing_by
  apply Prod.Lex.right
  omega

/-- The `for parent_idx in 0..parent_len` loop of
`create_dimension_array` (`remaining` counts the iterations left). -/
def createDimLoop (componentOf : Nat → Nat) (stack : List Int)
    (dimensionIdx dimensionsEndIdx : Nat) (parentAddr : Nat)
    (curCls : Nat) (h : ArrHeap) (pidx remaining : Nat) : ArrHeap :=
  match remaining with
  | 0 => h
  | r + 1 =>
    let len := peekInt stack (dimensionsEndIdx - dimensionIdx)
    let alloc := jarrayNew h len curCls
    let h2 := recordSet alloc.1 parentAddr pidx alloc.2
    let h3 := if hlt : dimensionIdx < dimensionsEndIdx then
        createDimensionArray componentOf stack (dimensionIdx + 1)
          dimensionsEndIdx alloc.2 len (componentOf curCls) h2
      else h2
    createDimLoop componentOf stack dimensionIdx dimensionsEndIdx parentAddr
      curCls h3 (pidx + 1) r
termination_by (dimensionsEndIdx + 1 - dimensionIdx, remaining)
decreasing_by
  · apply Prod.Lex.left
    omega
  · apply Prod.Lex.right
    omega

end

/-- Interpreter state relevant to `multianewarray`: operand stack and the
array heap. -/
structure MInterpState where
  stack : List Int
  heap : ArrHeap
  deriving DecidableEq, Repr

/-- The `multianewarray` handler after operand decoding and class
resolution: `dimensions` is the operand byte, `dimensionClass` the
resolved array class.  `none` models the `todo!("throw ClassFormatError")`
panic for `dimensions < 1`.  The outermost length is **peeked** at slot
`dimensions - 1`; the lengths are never popped, and the outer array
reference is pushed on top of them. -/
def multianewarrayStep (componentOf : Nat → Nat) (dimensionClass : Nat)
    (dimensions : Nat) (st : MInterpState) : Option MInterpState :=
  if dimensions < 1 then none
  else
    let dimensionsEndIdx := dimensions - 1
    let dimensionLength := peekInt st.stack dimensionsEndIdx
    let alloc := jarrayNew st.heap dimensionLength dimensionClass
    let h2 := if 1 < dimensions then
        createDimensionArray componentOf st.stack 1 dimensionsEndIdx alloc.2
          dimensionLength (componentOf dimensionClass) alloc.1
      else alloc.1
    some ⟨(alloc.2 : Int) :: st.stack, h2⟩

/-!
## Claim C7

The claim says the handler pops the `dimensions` integer lengths and
leaves the outer array as the sole value added to the operand stack.  The
code reads the lengths with `peek_int` only and pushes the array without
popping anything, so after the instruction the `dimensions` length
operands are still on the stack underneath the array reference.
-/

/-- C7: executing `multianewarray` with `dimensions = 2` on the operand
stack `[3, 2]` (top first: innermost length 3, outermost length 2) indeed
reads the dimension count, allocates the outer array of length 2 (address
100) and one inner array of length 3 per outer slot (addresses 101, 102,
along the component type 21) — but the result stack is `[100, 3, 2]`: the
two length operands were never popped, so the array is not the sole value
added, contradicting the claim (which requires the result stack `[100]`).
-/
theorem claim_C7_multianewarray_not_popping :
    multianewarrayStep (fun _ => 21) 20 2 ⟨[3, 2], ⟨100, [], []⟩⟩
      = some ⟨[100, 3, 2],
          ⟨103, [(100, 2, 20), (101, 3, 21), (102, 3, 21)],
            [(100, 0, 101), (100, 1, 102)]⟩⟩ ∧
    (multianewarrayStep (fun _ => 21) 20 2 ⟨[3, 2], ⟨100, [], []⟩⟩).map
        MInterpState.stack ≠ some [100] := by
  have heval : multianewarrayStep (fun _ => 21) 20 2 ⟨[3, 2], ⟨100, [], []⟩⟩
      = some ⟨[100, 3, 2],
          ⟨103, [(100, 2, 20), (101, 3, 21), (102, 3, 21)],
            [(100, 0, 101), (100, 1, 102)]⟩⟩ := by
    simp [multianewarrayStep, createDimensionArray, createDimLoop.eq_def,
      jarrayNew, recordSet, peekInt]
  exact ⟨heval, by rw [heval]; simp⟩

/-! ## Symbol interning: the open-addressing hash table
(src/object/hash_table.rs, src/object/symbol.rs)

The symbol table stores interned symbols in a quadratic-probing
open-addressing table.  We embed the table machinery: the prime capacity
computation (`sqrt` / `is_prime` / `next_prime`), the `TableHasher`
(`((a·key + b) mod p) mod capacity` on `u64` with a sign-extended `i32`
key), the `±1², ±2², …` probe sequence, `get_or_insert_str`,
`insert_entry` with its load-factor-0.75 resize, and the `insert` used to
re-populate a resized table.

Modelling notes, each marked at its definition:
- a symbol is `(addr, hash, content)`: its permanent address (allocation
  returns consecutive fresh addresses), the stored `hash` field, and the
  UTF-8 content;
- probe loops that are unbounded in the source take an explicit fuel; a
  run that exhausts fuel returns `none` and theorems quantify over
  completed runs;
- the resize threshold `(size+1) as f32 / capacity as f32 >= 0.75` is
  modelled by the exact rational comparison `4·(size+1) ≥ 3·capacity`;
- the random `a`, `b` of a fresh `TableHasher` are drawn from an oracle
  (an arbitrary function, standing for `rand::thread_rng`). -/

/-- The source's binary-search `sqrt(n)` (hash_table.rs), loop state
`(low, high, mid)`. -/
def rustSqrtAux (n : Nat) (low high mid : Nat) : Nat :=
  if _h : low < high then
    let mid' := (low + high) / 2
    let square := mid' * mid'
    if square = n then mid'
    else if square > n then rustSqrtAux n low (mid' - 1) mid'
    else rustSqrtAux n (mid' + 1) high mid'
  else if mid * mid = n then mid else high
termination_by high + 1 - low
decreasing_by
  all_goals omega

/-- Embeds `sqrt(n)` as in the source: binary search from `(1, n)`. -/
def rustSqrt (n : Nat) : Nat := rustSqrtAux n 1 n ((1 + n) / 2)

/-- Embeds `is_prime(n)` as in the source: trial division by the odd numbers
`3, 5, …, sqrt(n)` (the `(3..upper+1).step_by(2)` range). -/
def rustIsPrime (n : Nat) : Bool :=
  if n = 2 || n = 3 then true
  else if n % 2 = 0 || n ≤ 1 then false
  else
    (List.range' 3 ((rustSqrt n - 1) / 2) 2).all (fun m => n % m != 0)

/-- The `while !is_prime(n) { n += 2 }` loop of `next_prime`, with fuel
(the source loop runs until a prime is hit; with the fuel chosen in
`rustNextPrime` the fallback is never taken for inputs that have a prime
within Bertrand range). -/
def rustNextPrimeLoop : Nat → Nat → Nat
  | 0, n => n
  | fuel + 1, n => if rustIsPrime n then n else rustNextPrimeLoop fuel (n + 2)

/-- Embeds `next_prime(n)` as in the source. -/
def rustNextPrime (n : Nat) : Nat :=
  if n ≤ 2 then 2
  else rustNextPrimeLoop (n + 2) (if n % 2 = 0 then n + 1 else n)

lemma rustNextPrimeLoop_ge (fuel n : Nat) : n ≤ rustNextPrimeLoop fuel n := by
  induction fuel generalizing n with
  | zero => exact le_refl n
  | succ f ih =>
    rw [rustNextPrimeLoop]
    by_cases h : rustIsPrime n
    · simp [h]
    · simp only [h, Bool.false_eq_true, if_false]
      exact le_trans (by omega) (ih (n + 2))

lemma rustNextPrime_ge_two (n : Nat) : 2 ≤ rustNextPrime n := by
  rw [rustNextPrime]
  by_cases h : n ≤ 2
  · simp [h]
  · simp only [h, if_false]
    calc (2 : Nat) ≤ n := by omega
      _ ≤ (if n % 2 = 0 then n + 1 else n) := by split <;> omega
      _ ≤ _ := rustNextPrimeLoop_ge _ _

/-- When `n` is not a perfect square, the binary search never leaves the
interval: `rustSqrtAux n low high mid ≤ high` (fuel-indexed induction on
the shrinking interval). -/
lemma rustSqrtAux_le_of_not_square (n : Nat) (hn : ∀ m, m * m ≠ n) :
    ∀ fuel low high mid, high + 1 - low ≤ fuel → rustSqrtAux n low high mid ≤ high := by
  intro fuel
  induction fuel with
  | zero =>
    intro low high mid hf
    rw [rustSqrtAux.eq_def]
    rw [dif_neg (by omega : ¬ low < high)]
    exact le_of_eq (if_neg (hn mid))
  | succ f ih =>
    intro low high mid hf
    rw [rustSqrtAux.eq_def]
    by_cases hlh : low < high
    · rw [dif_pos hlh]
      simp only []
      rw [if_neg (hn _)]
      by_cases hgt : (low + high) / 2 * ((low + high) / 2) > n
      · rw [if_pos hgt]
        exact le_trans (ih low ((low + high) / 2 - 1) ((low + high) / 2) (by omega)) (by omega)
      · rw [if_neg hgt]
        exact ih ((low + high) / 2 + 1) high ((low + high) / 2) (by omega)
    · rw [dif_neg hlh]
      exact le_of_eq (if_neg (hn mid))

/-- A prime is not a perfect square. -/
lemma prime_not_square {p : Nat} (hp : Nat.Prime p) : ∀ m, m * m ≠ p := by
  intro m hm
  have h1 := hp.one_lt
  rcases hp.eq_one_or_self_of_dvd m ⟨m, hm.symm⟩ with h | h
  · subst h; simp at hm; omega
  · subst h; nlinarith

/-- On a prime `p ≥ 5` the source's `sqrt` returns a value `< p`: the first
bisection step brings `high` down to `(1 + p) / 2 - 1`, and by
`rustSqrtAux_le_of_not_square` the search never exceeds it again. -/
lemma rustSqrt_lt_of_prime {p : Nat} (hp : Nat.Prime p) (hge : 5 ≤ p) : rustSqrt p < p := by
  have hn := prime_not_square hp
  rw [rustSqrt, rustSqrtAux.eq_def]
  rw [dif_pos (by omega : (1 : Nat) < p)]
  simp only []
  have hq3 : 3 ≤ (1 + p) / 2 := by omega
  have hq2 : p ≤ 2 * ((1 + p) / 2) := by omega
  have hgt : (1 + p) / 2 * ((1 + p) / 2) > p :=
    calc p < 2 * ((1 + p) / 2) + (1 + p) / 2 := by omega
      _ = 3 * ((1 + p) / 2) := by ring
      _ ≤ (1 + p) / 2 * ((1 + p) / 2) := mul_le_mul_right' hq3 _
  rw [if_neg (hn _), if_pos hgt]
  have hle := rustSqrtAux_le_of_not_square p hn ((1 + p) / 2) 1 ((1 + p) / 2 - 1)
    ((1 + p) / 2) (by omega)
  omega

/-- The source's trial-division test accepts every actual prime: each trial
divisor is an odd number between `3` and `rustSqrt p < p`, hence cannot
divide `p`. -/
lemma rustIsPrime_of_prime {p : Nat} (hp : Nat.Prime p) : rustIsPrime p = true := by
  by_cases h23 : p = 2 ∨ p = 3
  · rcases h23 with h | h <;> subst h <;> decide
  · have h2 : p ≠ 2 := fun h => h23 (Or.inl h)
    have h3 : p ≠ 3 := fun h => h23 (Or.inr h)
    have h4 : p ≠ 4 := by intro h; rw [h] at hp; exact absurd hp (by decide)
    have hge : 5 ≤ p := by have := hp.two_le; omega
    have hodd : p % 2 = 1 := by
      rcases hp.eq_two_or_odd with h | h
      · exact absurd h h2
      · exact h
    have hu := rustSqrt_lt_of_prime hp hge
    rw [rustIsPrime]
    rw [if_neg (by simp [h2, h3])]
    rw [if_neg (by simp only [Bool.or_eq_true, decide_eq_true_eq]; omega)]
    rw [List.all_eq_true]
    intro m hm
    rw [List.mem_range'] at hm
    obtain ⟨i, hi, rfl⟩ := hm
    simp only [bne_iff_ne]
    intro hdvd0
    have hdvd : (3 + 2 * i) ∣ p := Nat.dvd_of_mod_eq_zero hdvd0
    rcases hp.eq_one_or_self_of_dvd _ hdvd with h | h
    · omega
    · have hle : 3 + 2 * i ≤ rustSqrt p := by omega
      omega

/-- If a prime of the right parity lies within `fuel` steps of `n`, the
fueled loop stops at a value the source's test accepts (it never reaches
the fuel-exhaustion fallback). -/
lemma rustNextPrimeLoop_prime :
    ∀ fuel n, (∃ p, Nat.Prime p ∧ n ≤ p ∧ p ≤ n + 2 * fuel ∧ p % 2 = n % 2) →
      rustIsPrime (rustNextPrimeLoop fuel n) = true := by
  intro fuel
  induction fuel with
  | zero =>
    intro n hex
    obtain ⟨p, hp, h1, h2, _⟩ := hex
    have hpn : p = n := by omega
    subst hpn
    exact rustIsPrime_of_prime hp
  | succ f ih =>
    intro n hex
    obtain ⟨p, hp, h1, h2, h3⟩ := hex
    rw [rustNextPrimeLoop]
    by_cases h : rustIsPrime n
    · rw [if_pos h]; exact h
    · rw [if_neg h]
      apply ih
      have hne : p ≠ n := by
        intro he
        subst he
        exact h (rustIsPrime_of_prime hp)
      exact ⟨p, hp, by omega, by omega, by omega⟩

/-- Fidelity of the fuel choice in `rustNextPrime`: the returned value
always passes `rustIsPrime`, exactly as the source's unbounded
`while !is_prime(n)` loop guarantees — by Bertrand's postulate an odd prime
exists within the `n + 2` allotted steps, so the fallback branch of
`rustNextPrimeLoop` is dead. -/
theorem rustNextPrime_is_prime (n : Nat) : rustIsPrime (rustNextPrime n) = true := by
  rw [rustNextPrime]
  by_cases h : n ≤ 2
  · rw [if_pos h]; decide
  · rw [if_neg h]
    set m := (if n % 2 = 0 then n + 1 else n) with hm
    have hm3 : 3 ≤ m := by rw [hm]; split <;> omega
    have hm1 : m % 2 = 1 := by rw [hm]; split <;> omega
    have hmn : m ≤ n + 1 := by rw [hm]; split <;> omega
    rcases Nat.exists_prime_lt_and_le_two_mul (m - 1) (by omega) with ⟨p, hp, hlt, hle⟩
    have hodd : p % 2 = 1 := by
      rcases hp.eq_two_or_odd with h2 | h2
      · omega
      · exact h2
    exact rustNextPrimeLoop_prime (n + 2) m ⟨p, hp, by omega, by omega, by omega⟩

/-- An interned symbol: permanent address, stored 32-bit hash pattern,
UTF-8 content (as its sequence of code points; `&str` equality is content
equality). -/
structure Sym where
  addr : Nat
  hash : Nat
  content : List Nat
  deriving DecidableEq, Repr

/-- The hash table: capacity, entry count, the three `TableHasher`
parameters, and the entry slots (`Address` slots; `none` is a null
entry). -/
structure SymTable where
  capacity : Nat
  size : Nat
  hasherA : Nat
  hasherB : Nat
  hasherP : Nat
  slots : List (Option Sym)
  deriving DecidableEq, Repr

/-- Embeds `val as u64` for an `i32` bit pattern: sign extension. -/
def u64OfI32Pat (v : Nat) : Nat :=
  if v < 2 ^ 31 then v else 2 ^ 64 - 2 ^ 32 + v

/-- Embeds `TableHasher::hash`: `(((a * val as u64 + b) % p) % capacity) as i32`
with wrapping `u64` arithmetic. -/
def tableHash (a b p : Nat) (valPat : Nat) (capacity : Nat) : Nat :=
  ((a * u64OfI32Pat valPat % 2 ^ 64 + b) % 2 ^ 64 % p) % capacity

/-- The probe home slot of a table for a key hash pattern. -/
def originOf (t : SymTable) (valPat : Nat) : Nat :=
  tableHash t.hasherA t.hasherB t.hasherP valPat t.capacity

/-- The `k`-th offset of the quadratic probe sequence
`origin, origin + 1², origin − 1², origin + 2², origin − 2², …` (the
source normalizes with `while offset >= capacity { offset -= capacity }`
and `while offset < 0 { offset += capacity }`, i.e. reduction mod the
capacity). -/
def probeOffset (origin cap : Nat) (k : Nat) : Nat :=
  if k = 0 then origin
  else if k % 2 = 1 then (origin + ((k + 1) / 2) * ((k + 1) / 2)) % cap
  else (((origin : Int) - ((k / 2) * (k / 2) : Nat)) % (cap : Int)).toNat

/-- Result of the probe loop. -/
inductive ProbeResult where
  | found (idx : Nat) (s : Sym)
  | nullAt (idx : Nat)
  | fuelOut
  deriving DecidableEq, Repr

/-- The probe loop of `HashTable::probe`, keyed by content equality
(`Symbol::entry_equals_key` compares the symbol's bytes with the key):
starting at step `k`, stop at the first null slot or content-equal entry.
The source loop is unbounded; `fuel` bounds the modelled walk. -/
def probeGo (slots : List (Option Sym)) (origin cap : Nat) (content : List Nat) :
    Nat → Nat → ProbeResult
  | 0, _ => .fuelOut
  | fuel + 1, k =>
    let idx := probeOffset origin cap k
    match slots.getD idx none with
    | none => .nullAt idx
    | some s =>
      if s.content = content then .found idx s
      else probeGo slots origin cap content fuel (k + 1)

/-- Probe fuel per table: any fixed bound works (the invariant records,
for every stored entry, a finding step below this bound). -/
def probeFuel (cap : Nat) : Nat := cap * cap + 2

/-- Embeds `HashTable::new_with_init_size`: capacity `next_prime(init_size/3*4)`,
a fresh `TableHasher` with `p = next_prime(capacity)`,
`a ∈ [1, p)`, `b ∈ [0, p)` drawn from the randomness oracle. -/
def newWithInitSize (oracle : Nat → Nat × Nat) (initSize : Nat) : SymTable :=
  let capacity := rustNextPrime (initSize / 3 * 4)
  let p := rustNextPrime capacity
  let a := 1 + (oracle capacity).1 % (p - 1)
  let b := (oracle capacity).2 % p
  ⟨capacity, 0, a, b, p, List.replicate capacity none⟩

/-- Embeds `HashTable::new`: `new_with_init_size(DEFAULT_SIZE = 8)`. -/
def symbolTableNew (oracle : Nat → Nat × Nat) : SymTable :=
  newWithInitSize oracle 8

/-- Embeds `HashTable::insert` (the `VMObject` insert used to re-populate a
resized table): probe by the entry's stored hash (`V::hash`) and content
equality (`V::equals`); a null slot inserts — growing again if the load
factor is reached, by building a `new_with_init_size(size << 2)` table,
re-inserting every entry in slot order and finally the new value — and a
content-equal slot is overwritten.  `rf` bounds the resize nesting depth
(`none` on exhaustion). -/
def tableInsert (oracle : Nat → Nat × Nat) :
    (rf : Nat) → SymTable → Sym → Option SymTable
  | rf, t, s =>
    match probeGo t.slots (originOf t s.hash) t.capacity s.content
        (probeFuel t.capacity) 0 with
    | .fuelOut => none
    | .found idx _ => some { t with slots := t.slots.set idx (some s) }
    | .nullAt idx =>
      if 4 * (t.size + 1) ≥ 3 * t.capacity then
        match rf with
        | 0 => none
        | rf' + 1 =>
          let reins := t.slots.foldl
            (fun acc os =>
              match acc, os with
              | none, _ => none
              | some tt, none => some tt
              | some tt, some olds => tableInsert oracle rf' tt olds)
            (some (newWithInitSize oracle (t.size * 4)))
          match reins with
          | none => none
          | some t2 => tableInsert oracle rf' t2 s
      else
        some { t with slots := t.slots.set idx (some s), size := t.size + 1 }

/-- Re-inserting a slot vector into a table (the resize loop of
`insert_entry`; a wrapper around the fold inside `tableInsert`). -/
def reinsertAll (oracle : Nat → Nat × Nat) (rf : Nat)
    (slots : List (Option Sym)) (t : SymTable) : Option SymTable :=
  slots.foldl
    (fun acc os =>
      match acc, os with
      | none, _ => none
      | some tt, none => some tt
      | some tt, some olds => tableInsert oracle rf tt olds)
    (some t)

/-- Embeds `HashTable::get_or_insert_str` for the symbol table
(`K = Utf8String`, `V = Symbol`): probe by `hash_utf8` of the key and
content equality; a hit returns the stored symbol, a null slot allocates
`Symbol::new_with_hash(key, key_hash)` at the next fresh permanent address
and runs `insert_entry` on the null entry (resize included).  Returns the
updated table, the next fresh address, and the returned symbol pointer. -/
def getOrInsertStr (oracle : Nat → Nat × Nat) (rf : Nat) (t : SymTable)
    (nextAddr : Nat) (content : List Nat) : Option (SymTable × Nat × Sym) :=
  let keyHash := hashUtf8 content
  match probeGo t.slots (originOf t keyHash) t.capacity content
      (probeFuel t.capacity) 0 with
  | .fuelOut => none
  | .found _ s => some (t, nextAddr, s)
  | .nullAt idx =>
    let s : Sym := ⟨nextAddr, keyHash, content⟩
    if 4 * (t.size + 1) ≥ 3 * t.capacity then
      match rf with
      | 0 => none
      | rf' + 1 =>
        match reinsertAll oracle rf' t.slots
            (newWithInitSize oracle (t.size * 4)) with
        | none => none
        | some t2 =>
          match tableInsert oracle rf' t2 s with
          | none => none
          | some t3 => some (t3, nextAddr + 1, s)
    else
      some ({ t with slots := t.slots.set idx (some s), size := t.size + 1 },
        nextAddr + 1, s)

/-- The symbol-table state threaded through a sequence of
`SymbolTable::get_or_insert` calls: the table and the permanent
allocator's next symbol address. -/
structure SymTabState where
  table : SymTable
  nextAddr : Nat
  deriving DecidableEq, Repr

/-- One `SymbolTable::get_or_insert` call. -/
def symGetOrInsert (oracle : Nat → Nat × Nat) (rf : Nat) (st : SymTabState)
    (content : List Nat) : Option (SymTabState × Sym) :=
  match getOrInsertStr oracle rf st.table st.nextAddr content with
  | none => none
  | some (t', na', s) => some (⟨t', na'⟩, s)

/-- A sequence of `get_or_insert` calls, returning the final state and the
returned symbol of every call (`none` as soon as any call exhausts its
fuel). -/
def runGetOrInsert (oracle : Nat → Nat × Nat) (rf : Nat) (st : SymTabState) :
    List (List Nat) → Option (SymTabState × List Sym)
  | [] => some (st, [])
  | c :: cs =>
    match symGetOrInsert oracle rf st c with
    | none => none
    | some (st1, s) =>
      match runGetOrInsert oracle rf st1 cs with
      | none => none
      | some (st2, syms) => some (st2, s :: syms)

/-! ### Probe-loop characterization -/

/-- A symbol is stored in a table when some slot holds it. -/
def storedIn (t : SymTable) (x : Sym) : Prop :=
  ∃ i, t.slots.getD i none = some x

lemma probeOffset_lt {origin cap : Nat} (k : Nat) (hcap : 0 < cap)
    (ho : origin < cap) : probeOffset origin cap k < cap := by
  unfold probeOffset
  split_ifs with h0 h1
  · exact ho
  · exact Nat.mod_lt _ hcap
  · have hpos : (0 : Int) < (cap : Int) := by exact_mod_cast hcap
    have h1 : ((origin : Int) - ((k / 2) * (k / 2) : Nat)) % (cap : Int) < cap :=
      Int.emod_lt_of_pos _ hpos
    have h2 : 0 ≤ ((origin : Int) - ((k / 2) * (k / 2) : Nat)) % (cap : Int) :=
      Int.emod_nonneg _ (by omega)
    omega

lemma probeGo_nullAt {slots : List (Option Sym)} {origin cap : Nat}
    {c : List Nat} :
    ∀ {fuel k0 idx}, probeGo slots origin cap c fuel k0 = .nullAt idx →
      ∃ k, k0 ≤ k ∧ k < k0 + fuel ∧ probeOffset origin cap k = idx ∧
        slots.getD idx none = none ∧
        ∀ j, k0 ≤ j → j < k →
          ∃ s', slots.getD (probeOffset origin cap j) none = some s' ∧
            s'.content ≠ c := by
  intro fuel
  induction fuel with
  | zero => intro k0 idx h; exact absurd h (by rw [probeGo]; simp)
  | succ f ih =>
    intro k0 idx h
    rw [probeGo] at h
    rcases hslot : slots.getD (probeOffset origin cap k0) none with _ | s
    · rw [hslot] at h
      simp only [ProbeResult.nullAt.injEq] at h
      exact ⟨k0, le_refl _, by omega, h, by rw [← h]; exact hslot,
        fun j hj1 hj2 => absurd (lt_of_le_of_lt hj1 hj2) (lt_irrefl _)⟩
    · rw [hslot] at h
      simp only [] at h
      by_cases heq : s.content = c
      · rw [if_pos heq] at h; exact absurd h (by simp)
      · rw [if_neg heq] at h
        obtain ⟨k, hk1, hk2, hk3, hk4, hk5⟩ := ih h
        refine ⟨k, by omega, by omega, hk3, hk4, fun j hj1 hj2 => ?_⟩
        rcases Nat.eq_or_lt_of_le hj1 with hj | hj
        · exact ⟨s, by rw [hj] at hslot; exact hslot, heq⟩
        · exact hk5 j hj hj2

lemma probeGo_found {slots : List (Option Sym)} {origin cap : Nat}
    {c : List Nat} :
    ∀ {fuel k0 idx s}, probeGo slots origin cap c fuel k0 = .found idx s →
      slots.getD idx none = some s ∧ s.content = c := by
  intro fuel
  induction fuel with
  | zero => intro k0 idx s h; exact absurd h (by rw [probeGo]; simp)
  | succ f ih =>
    intro k0 idx s h
    rw [probeGo] at h
    rcases hslot : slots.getD (probeOffset origin cap k0) none with _ | s'
    · rw [hslot] at h; exact absurd h (by simp)
    · rw [hslot] at h
      simp only [] at h
      by_cases heq : s'.content = c
      · rw [if_pos heq] at h
        simp only [ProbeResult.found.injEq] at h
        obtain ⟨h1, h2⟩ := h
        subst h1; subst h2
        exact ⟨hslot, heq⟩
      · rw [if_neg heq] at h
        exact ih h

lemma probeGo_stops {slots : List (Option Sym)} {origin cap : Nat}
    {c : List Nat} :
    ∀ {fuel k0} (kstop : Nat), k0 ≤ kstop → kstop < k0 + fuel →
      (slots.getD (probeOffset origin cap kstop) none = none ∨
        ∃ s, slots.getD (probeOffset origin cap kstop) none = some s ∧
          s.content = c) →
      probeGo slots origin cap c fuel k0 ≠ .fuelOut := by
  intro fuel
  induction fuel with
  | zero => intro k0 kstop h1 h2 _; omega
  | succ f ih =>
    intro k0 kstop h1 h2 hstop
    rw [probeGo]
    rcases hslot : slots.getD (probeOffset origin cap k0) none with _ | s
    · simp [hslot]
    · simp only [hslot]
      by_cases heq : s.content = c
      · simp [heq]
      · rw [if_neg heq]
        have hne : kstop ≠ k0 := by
          intro he
          subst he
          rcases hstop with hn | ⟨s', hs', hc'⟩
          · rw [hslot] at hn; exact absurd hn (by simp)
          · rw [hslot] at hs'
            simp only [Option.some.injEq] at hs'
            subst hs'
            exact heq hc'
        exact ih kstop (by omega) (by omega) hstop

/-- If a symbol with the key's content is stored, the probe started at its
home slot returns that very symbol (the table invariant below supplies the
`findable` data and the content-uniqueness). -/
lemma probe_finds (t : SymTable) {i : Nat} {s : Sym}
    (hs : t.slots.getD i none = some s)
    (hfind : ∃ k, k < probeFuel t.capacity ∧
      probeOffset (originOf t (hashUtf8 s.content)) t.capacity k = i ∧
      ∀ j < k, t.slots.getD
        (probeOffset (originOf t (hashUtf8 s.content)) t.capacity j) none ≠ none)
    (huniq : ∀ i' s', t.slots.getD i' none = some s' →
      s'.content = s.content → i' = i) :
    probeGo t.slots (originOf t (hashUtf8 s.content)) t.capacity s.content
      (probeFuel t.capacity) 0 = .found i s := by
  obtain ⟨kf, hkf, hoff, hnn⟩ := hfind
  cases hres : probeGo t.slots (originOf t (hashUtf8 s.content)) t.capacity
      s.content (probeFuel t.capacity) 0 with
  | found idx s' =>
    obtain ⟨hslot, hc⟩ := probeGo_found hres
    have hidx : idx = i := huniq idx s' hslot hc
    subst hidx
    rw [hs] at hslot
    simp only [Option.some.injEq] at hslot
    rw [hslot]
  | nullAt idx =>
    obtain ⟨k, _, hk2, hk3, hk4, hk5⟩ := probeGo_nullAt hres
    rcases lt_trichotomy k kf with hlt | heq | hgt
    · exact absurd hk4 (hk3 ▸ hnn k hlt)
    · subst heq
      rw [hoff] at hk3
      rw [← hk3, hs] at hk4
      exact absurd hk4 (by simp)
    · obtain ⟨s', hs', hc'⟩ := hk5 kf (by omega) hgt
      rw [hoff, hs] at hs'
      simp only [Option.some.injEq] at hs'
      subst hs'
      exact absurd rfl hc'
  | fuelOut =>
    exact absurd hres (probeGo_stops kf (by omega) (by omega)
      (Or.inr ⟨s, by rw [hoff]; exact hs, rfl⟩))

/-! ### The table invariant -/

lemma getD_set_self {l : List (Option Sym)} {idx : Nat} (h : idx < l.length)
    (v : Option Sym) : (l.set idx v).getD idx none = v := by
  simp [List.getD_eq_getElem?_getD, List.getElem?_set_self', h]

lemma getD_set_ne {l : List (Option Sym)} {i idx : Nat} (h : i ≠ idx)
    (v : Option Sym) : (l.set idx v).getD i none = l.getD i none := by
  simp [List.getD_eq_getElem?_getD, List.getElem?_set_ne (Ne.symm h)]

lemma getD_replicate {n i : Nat} :
    (List.replicate n (none : Option Sym)).getD i none = none := by
  rcases lt_or_ge i n with h | h
  · simp [List.getD_eq_getElem?_getD, List.getElem?_replicate, h]
  · have hlen : (List.replicate n (none : Option Sym)).length ≤ i := by simpa using h
    simp [List.getD_eq_getElem?_getD, List.getElem?_eq_none hlen]

/-- The interning invariant of the symbol hash table, relative to the
permanent allocator's next fresh address `na`: stored symbols have
well-formed hashes and fresh-bounded, pairwise-distinct addresses and
pairwise-distinct contents, and every stored symbol is reachable by its
probe sequence without crossing a null slot. -/
structure TableInv (t : SymTable) (na : Nat) : Prop where
  capPos : 0 < t.capacity
  slotsLen : t.slots.length = t.capacity
  hashOk : ∀ i s, t.slots.getD i none = some s → s.hash = hashUtf8 s.content
  fresh : ∀ i s, t.slots.getD i none = some s → s.addr < na
  distinctContent : ∀ i j si sj, t.slots.getD i none = some si →
    t.slots.getD j none = some sj → si.content = sj.content → i = j
  distinctAddr : ∀ i j si sj, t.slots.getD i none = some si →
    t.slots.getD j none = some sj → si.addr = sj.addr → i = j
  findable : ∀ i s, t.slots.getD i none = some s →
    ∃ k, k < probeFuel t.capacity ∧
      probeOffset (originOf t (hashUtf8 s.content)) t.capacity k = i ∧
      ∀ j < k, t.slots.getD
        (probeOffset (originOf t (hashUtf8 s.content)) t.capacity j) none ≠ none

lemma TableInv.mono {t : SymTable} {na na' : Nat} (h : TableInv t na)
    (hle : na ≤ na') : TableInv t na' :=
  { h with fresh := fun i s hs => lt_of_lt_of_le (h.fresh i s hs) hle }

lemma originOf_lt {t : SymTable} (hcap : 0 < t.capacity) (pat : Nat) :
    originOf t pat < t.capacity := Nat.mod_lt _ hcap

/-- With the invariant, a stored symbol is what the probe for its content
returns. -/
lemma TableInv.probe_finds_stored {t : SymTable} {na : Nat}
    (hInv : TableInv t na) {i : Nat} {s : Sym}
    (hs : t.slots.getD i none = some s) :
    probeGo t.slots (originOf t (hashUtf8 s.content)) t.capacity s.content
      (probeFuel t.capacity) 0 = .found i s :=
  probe_finds t hs (hInv.findable i s hs)
    (fun i' s' hs' hc => hInv.distinctContent i' i s' s hs' hs hc)

/-- With the invariant, a probe that stops at a null slot certifies that
no symbol with the key's content is stored. -/
lemma TableInv.not_stored_of_nullAt {t : SymTable} {na : Nat}
    (hInv : TableInv t na) {c : List Nat} {idx : Nat}
    (hp : probeGo t.slots (originOf t (hashUtf8 c)) t.capacity c
      (probeFuel t.capacity) 0 = .nullAt idx) :
    ∀ i s, t.slots.getD i none = some s → s.content ≠ c := by
  intro i s hs hc
  subst hc
  rw [hInv.probe_finds_stored hs] at hp
  exact absurd hp (by simp)

/-- Inserting a fresh symbol into the null slot its probe found preserves
the invariant; the stored set gains exactly that symbol. -/
lemma insertAtNull_inv {t : SymTable} {na : Nat} (hInv : TableInv t na)
    {c : List Nat} {idx : Nat}
    (hp : probeGo t.slots (originOf t (hashUtf8 c)) t.capacity c
      (probeFuel t.capacity) 0 = .nullAt idx)
    {s : Sym} (hsc : s.content = c) (hsh : s.hash = hashUtf8 c)
    {na' : Nat} (hna : s.addr < na') (hmono : na ≤ na')
    (haddr : ∀ i si, t.slots.getD i none = some si → si.addr ≠ s.addr) :
    TableInv { t with slots := t.slots.set idx (some s), size := t.size + 1 } na' ∧
    (∀ x, storedIn t x →
      storedIn { t with slots := t.slots.set idx (some s), size := t.size + 1 } x) ∧
    storedIn { t with slots := t.slots.set idx (some s), size := t.size + 1 } s ∧
    (∀ x, storedIn { t with slots := t.slots.set idx (some s), size := t.size + 1 } x →
      storedIn t x ∨ x = s) := by
  obtain ⟨k, _, hkfuel, hoffk, hnullk, hbefore⟩ := probeGo_nullAt hp
  have hidxlt : idx < t.capacity := by
    rw [← hoffk]
    exact probeOffset_lt k hInv.capPos (originOf_lt hInv.capPos _)
  have hidxlen : idx < t.slots.length := by rw [hInv.slotsLen]; exact hidxlt
  have hnotstored := hInv.not_stored_of_nullAt hp
  set t' : SymTable :=
    { t with slots := t.slots.set idx (some s), size := t.size + 1 } with ht'
  have hget : ∀ i, t'.slots.getD i none
      = if i = idx then some s else t.slots.getD i none := by
    intro i
    by_cases h : i = idx
    · subst h; simp only [ht', if_pos rfl]; exact getD_set_self hidxlen _
    · simp only [ht', if_neg h]; exact getD_set_ne h _
  have hgetOld : ∀ i si, t.slots.getD i none = some si →
      t'.slots.getD i none = some si := by
    intro i si hsi
    rw [hget]
    have : i ≠ idx := fun he => by rw [he, hnullk] at hsi; exact absurd hsi (by simp)
    rw [if_neg this]
    exact hsi
  have hcases : ∀ i si, t'.slots.getD i none = some si →
      (i = idx ∧ si = s) ∨ (i ≠ idx ∧ t.slots.getD i none = some si) := by
    intro i si hsi
    rw [hget] at hsi
    by_cases h : i = idx
    · rw [if_pos h] at hsi
      simp only [Option.some.injEq] at hsi
      exact Or.inl ⟨h, hsi.symm⟩
    · rw [if_neg h] at hsi
      exact Or.inr ⟨h, hsi⟩
  have hsameOrigin : ∀ pat, originOf t' pat = originOf t pat := fun _ => rfl
  refine ⟨⟨hInv.capPos, by simp [ht', hInv.slotsLen], ?_, ?_, ?_, ?_, ?_⟩, ?_, ?_, ?_⟩
  · -- hashOk
    intro i si hsi
    rcases hcases i si hsi with ⟨_, he⟩ | ⟨_, hold⟩
    · subst he; rw [hsh, hsc]
    · exact hInv.hashOk i si hold
  · -- fresh
    intro i si hsi
    rcases hcases i si hsi with ⟨_, he⟩ | ⟨_, hold⟩
    · subst he; exact hna
    · exact lt_of_lt_of_le (hInv.fresh i si hold) hmono
  · -- distinctContent
    intro i j si sj hsi hsj hcc
    rcases hcases i si hsi with ⟨hi, hei⟩ | ⟨hi, holdi⟩ <;>
      rcases hcases j sj hsj with ⟨hj, hej⟩ | ⟨hj, holdj⟩
    · rw [hi, hj]
    · subst hei
      exact absurd (hcc.symm.trans hsc) (hnotstored j sj holdj)
    · subst hej
      exact absurd (hcc.trans hsc) (hnotstored i si holdi)
    · exact hInv.distinctContent i j si sj holdi holdj hcc
  · -- distinctAddr
    intro i j si sj hsi hsj haa
    rcases hcases i si hsi with ⟨hi, hei⟩ | ⟨hi, holdi⟩ <;>
      rcases hcases j sj hsj with ⟨hj, hej⟩ | ⟨hj, holdj⟩
    · rw [hi, hj]
    · subst hei
      exact absurd haa.symm (haddr j sj holdj)
    · subst hej
      exact absurd haa (haddr i si holdi)
    · exact hInv.distinctAddr i j si sj holdi holdj haa
  · -- findable
    intro i si hsi
    rcases hcases i si hsi with ⟨hi, hei⟩ | ⟨hi, holdi⟩
    · subst hei
      subst hi
      refine ⟨k, by simpa using hkfuel, by rw [hsameOrigin, hsc]; exact hoffk, ?_⟩
      intro j hj
      obtain ⟨s', hs', _⟩ := hbefore j (by omega) hj
      rw [hsameOrigin, hsc, hget]
      split
      · simp
      · rw [hs']; simp
    · obtain ⟨k0, hk01, hk02, hk03⟩ := hInv.findable i si holdi
      refine ⟨k0, hk01, by rw [hsameOrigin]; exact hk02, ?_⟩
      intro j hj
      rw [hsameOrigin, hget]
      split
      · simp
      · exact hk03 j hj
  · -- stored preservation
    intro x ⟨i, hx⟩
    exact ⟨i, hgetOld i x hx⟩
  · -- new symbol stored
    exact ⟨idx, by rw [hget, if_pos rfl]⟩
  · -- stored set bounded
    intro x ⟨i, hx⟩
    rcases hcases i x hx with ⟨_, he⟩ | ⟨_, hold⟩
    · exact Or.inr he
    · exact Or.inl ⟨i, hold⟩

/-! ### Resize and insertion -/

lemma getD_some_mem {l : List (Option Sym)} {i : Nat} {s : Sym}
    (h : l.getD i none = some s) : (some s) ∈ l := by
  rcases lt_or_ge i l.length with hi | hi
  · rw [List.getD_eq_getElem?_getD, List.getElem?_eq_getElem hi] at h
    simp only [Option.getD_some] at h
    rw [← h]
    exact List.getElem_mem hi
  · rw [List.getD_eq_getElem?_getD, List.getElem?_eq_none hi] at h
    exact absurd h (by simp)

lemma mem_some_getD {l : List (Option Sym)} {s : Sym}
    (h : (some s) ∈ l) : ∃ i, l.getD i none = some s := by
  obtain ⟨i, hi, hget⟩ := List.mem_iff_getElem.mp h
  exact ⟨i, by rw [List.getD_eq_getElem?_getD, List.getElem?_eq_getElem hi, hget]; rfl⟩

lemma newWithInitSize_inv (oracle : Nat → Nat × Nat) (n na : Nat) :
    TableInv (newWithInitSize oracle n) na := by
  have hempty : ∀ i, (newWithInitSize oracle n).slots.getD i none = none := by
    intro i
    simp only [newWithInitSize]
    exact getD_replicate
  refine ⟨?_, ?_, ?_, ?_, ?_, ?_, ?_⟩
  · simp only [newWithInitSize]
    have := rustNextPrime_ge_two (n / 3 * 4)
    omega
  · simp [newWithInitSize]
  · intro i s h; rw [hempty i] at h; exact absurd h (by simp)
  · intro i s h; rw [hempty i] at h; exact absurd h (by simp)
  · intro i j si sj h1; rw [hempty i] at h1; exact absurd h1 (by simp)
  · intro i j si sj h1; rw [hempty i] at h1; exact absurd h1 (by simp)
  · intro i s h; rw [hempty i] at h; exact absurd h (by simp)

lemma storedIn_newWithInitSize {oracle : Nat → Nat × Nat} {n : Nat} {x : Sym}
    (h : storedIn (newWithInitSize oracle n) x) : False := by
  obtain ⟨i, hi⟩ := h
  simp only [newWithInitSize] at hi
  rw [getD_replicate] at hi
  exact absurd hi (by simp)

/-- The reinsertion fold propagates `none`. -/
lemma reinsert_foldl_none (oracle : Nat → Nat × Nat) (rf : Nat)
    (slots : List (Option Sym)) :
    slots.foldl
      (fun acc os =>
        match acc, os with
        | none, _ => none
        | some tt, none => some tt
        | some tt, some olds => tableInsert oracle rf tt olds)
      none = none := by
  induction slots with
  | nil => rfl
  | cons os rest ih => rw [List.foldl_cons]; exact ih

/-- The insertion precondition relative to a table: fresh-bounded address,
well-formed hash, content and address distinct from everything stored. -/
def InsPre (t : SymTable) (na : Nat) (s : Sym) : Prop :=
  s.addr < na ∧ s.hash = hashUtf8 s.content ∧
  (∀ x, storedIn t x → x.content ≠ s.content) ∧
  (∀ x, storedIn t x → x.addr ≠ s.addr)

/-- The insertion postcondition: the invariant holds and the stored set
grew by exactly the inserted symbol. -/
def InsPost (t : SymTable) (na : Nat) (s : Sym) (t' : SymTable) : Prop :=
  TableInv t' na ∧ (∀ x, storedIn t x → storedIn t' x) ∧ storedIn t' s ∧
  (∀ x, storedIn t' x → storedIn t x ∨ x = s)

/-- Specification of `reinsertAll`, parameterized by the specification of
`tableInsert` at the current resize depth (supplied by the induction in
`tableInsert_spec`). -/
lemma reinsertAll_spec (oracle : Nat → Nat × Nat) (rf : Nat)
    (hrec : ∀ t na s t', TableInv t na → InsPre t na s →
      tableInsert oracle rf t s = some t' → InsPost t na s t') :
    ∀ (slots : List (Option Sym)) (acc : SymTable) (na : Nat) (res : SymTable),
      TableInv acc na →
      (∀ s0, (some s0) ∈ slots → s0.addr < na ∧ s0.hash = hashUtf8 s0.content) →
      (∀ s0, (some s0) ∈ slots → ∀ x, storedIn acc x →
        x.content ≠ s0.content ∧ x.addr ≠ s0.addr) →
      List.Pairwise (fun a b => ∀ sa sb, a = some sa → b = some sb →
        sa.content ≠ sb.content ∧ sa.addr ≠ sb.addr) slots →
      reinsertAll oracle rf slots acc = some res →
      TableInv res na ∧ (∀ x, storedIn acc x → storedIn res x) ∧
        (∀ s0, (some s0) ∈ slots → storedIn res s0) ∧
        (∀ x, storedIn res x → storedIn acc x ∨ (some x) ∈ slots) := by
  intro slots
  induction slots with
  | nil =>
    intro acc na res hInv _ _ _ hrun
    rw [reinsertAll, List.foldl_nil] at hrun
    simp only [Option.some.injEq] at hrun
    subst hrun
    exact ⟨hInv, fun x hx => hx, by simp, fun x hx => Or.inl hx⟩
  | cons os rest ih =>
    intro acc na res hInv hwf hdisj hpw hrun
    rw [reinsertAll, List.foldl_cons] at hrun
    rcases os with _ | s0
    · simp only [] at hrun
      have hrun' : reinsertAll oracle rf rest acc = some res := hrun
      obtain ⟨h1, h2, h3, h4⟩ := ih acc na res hInv
        (fun s0 hm => hwf s0 (List.mem_cons_of_mem _ hm))
        (fun s0 hm => hdisj s0 (List.mem_cons_of_mem _ hm))
        (List.Pairwise.of_cons hpw) hrun'
      refine ⟨h1, h2, ?_, ?_⟩
      · intro s0 hm
        rcases List.mem_cons.mp hm with he | hm'
        · exact absurd he.symm (by simp)
        · exact h3 s0 hm'
      · intro x hx
        rcases h4 x hx with h | h
        · exact Or.inl h
        · exact Or.inr (List.mem_cons_of_mem _ h)
    · simp only [] at hrun
      rcases hstep : tableInsert oracle rf acc s0 with _ | acc'
      · rw [hstep] at hrun
        rw [reinsert_foldl_none] at hrun
        exact absurd hrun (by simp)
      · rw [hstep] at hrun
        have hs0wf := hwf s0 (List.mem_cons_self _ _)
        have hpre : InsPre acc na s0 :=
          ⟨hs0wf.1, hs0wf.2,
            fun x hx => (hdisj s0 (List.mem_cons_self _ _) x hx).1,
            fun x hx => (hdisj s0 (List.mem_cons_self _ _) x hx).2⟩
        obtain ⟨hInv', hmono', hstored', hbound'⟩ := hrec acc na s0 acc' hInv hpre hstep
        obtain ⟨h1, h2, h3, h4⟩ := ih acc' na res hInv'
          (fun s1 hm => hwf s1 (List.mem_cons_of_mem _ hm))
          (fun s1 hm x hx => by
            rcases hbound' x hx with hold | he
            · exact hdisj s1 (List.mem_cons_of_mem _ hm) x hold
            · rw [he]
              exact List.rel_of_pairwise_cons hpw hm s0 s1 rfl rfl)
          (List.Pairwise.of_cons hpw) hrun
        refine ⟨h1, fun x hx => h2 x (hmono' x hx), ?_, ?_⟩
        · intro s1 hm
          rcases List.mem_cons.mp hm with he | hm'
          · have he' : s1 = s0 := by simpa using he
            subst he'
            exact h2 s1 hstored'
          · exact h3 s1 hm'
        · intro x hx
          rcases h4 x hx with h | h
          · rcases hbound' x h with hold | he
            · exact Or.inl hold
            · subst he
              exact Or.inr (List.mem_cons_self _ _)
          · exact Or.inr (List.mem_cons_of_mem _ h)

lemma getElem_to_getD {l : List (Option Sym)} {i : Nat} (hi : i < l.length) :
    l.getD i none = l[i] := by
  rw [List.getD_eq_getElem?_getD, List.getElem?_eq_getElem hi]
  rfl

/-- A table satisfying the invariant has pairwise content- and
address-distinct slots. -/
lemma pairwise_of_inv {t : SymTable} {na : Nat} (hInv : TableInv t na) :
    List.Pairwise (fun a b => ∀ sa sb, a = some sa → b = some sb →
      sa.content ≠ sb.content ∧ sa.addr ≠ sb.addr) t.slots := by
  rw [List.pairwise_iff_getElem]
  intro i j hi hj hij sa sb ha hb
  have ha' : t.slots.getD i none = some sa := by rw [getElem_to_getD hi, ha]
  have hb' : t.slots.getD j none = some sb := by rw [getElem_to_getD hj, hb]
  constructor
  · intro hc
    exact absurd (hInv.distinctContent i j sa sb ha' hb' hc) (by omega)
  · intro hc
    exact absurd (hInv.distinctAddr i j sa sb ha' hb' hc) (by omega)

/-- Specification of the resize-capable `HashTable::insert`: under the
precondition, a completed insert preserves the invariant and adds exactly
the new symbol to the stored set. -/
lemma tableInsert_spec (oracle : Nat → Nat × Nat) :
    ∀ (rf : Nat) (t : SymTable) (na : Nat) (s : Sym) (t' : SymTable),
      TableInv t na → InsPre t na s →
      tableInsert oracle rf t s = some t' → InsPost t na s t' := by
  intro rf
  induction rf with
  | zero =>
    intro t na s t' hInv hpre h
    obtain ⟨hna, hsh, hnc, hnaddr⟩ := hpre
    rw [tableInsert] at h
    cases hp : probeGo t.slots (originOf t s.hash) t.capacity s.content
        (probeFuel t.capacity) 0 with
    | fuelOut => rw [hp] at h; exact absurd h (by simp)
    | found idx s2 =>
      obtain ⟨hslot, hc⟩ := probeGo_found hp
      exact absurd hc (hnc s2 ⟨idx, hslot⟩)
    | nullAt idx =>
      rw [hp] at h
      simp only [] at h
      by_cases hth : 4 * (t.size + 1) ≥ 3 * t.capacity
      · rw [if_pos hth] at h
        exact absurd h (by simp)
      · rw [if_neg hth] at h
        simp only [Option.some.injEq] at h
        subst h
        rw [hsh] at hp
        obtain ⟨h1, h2, h3, h4⟩ := insertAtNull_inv hInv hp rfl hsh hna
          (le_refl na) (fun i si hsi => hnaddr si ⟨i, hsi⟩)
        exact ⟨h1, h2, h3, h4⟩
  | succ rf' ih =>
    intro t na s t' hInv hpre h
    obtain ⟨hna, hsh, hnc, hnaddr⟩ := hpre
    rw [tableInsert] at h
    cases hp : probeGo t.slots (originOf t s.hash) t.capacity s.content
        (probeFuel t.capacity) 0 with
    | fuelOut => rw [hp] at h; exact absurd h (by simp)
    | found idx s2 =>
      obtain ⟨hslot, hc⟩ := probeGo_found hp
      exact absurd hc (hnc s2 ⟨idx, hslot⟩)
    | nullAt idx =>
      rw [hp] at h
      simp only [] at h
      by_cases hth : 4 * (t.size + 1) ≥ 3 * t.capacity
      · rw [if_pos hth] at h
        have hfold : t.slots.foldl
            (fun acc os =>
              match acc, os with
              | none, _ => none
              | some tt, none => some tt
              | some tt, some olds => tableInsert oracle rf' tt olds)
            (some (newWithInitSize oracle (t.size * 4)))
            = reinsertAll oracle rf' t.slots (newWithInitSize oracle (t.size * 4)) := rfl
        rw [hfold] at h
        cases hre : reinsertAll oracle rf' t.slots
            (newWithInitSize oracle (t.size * 4)) with
        | none => rw [hre] at h; exact absurd h (by simp)
        | some t2 =>
          rw [hre] at h
          simp only [] at h
          have hrec : ∀ t na s t', TableInv t na → InsPre t na s →
              tableInsert oracle rf' t s = some t' → InsPost t na s t' :=
            fun t na s t' a b c => ih t na s t' a b c
          obtain ⟨hInv2, _, hall2, hbound2⟩ := reinsertAll_spec oracle rf' hrec
            t.slots (newWithInitSize oracle (t.size * 4)) na t2
            (newWithInitSize_inv oracle _ na)
            (fun s0 hm => by
              obtain ⟨i, hi⟩ := mem_some_getD hm
              exact ⟨hInv.fresh i s0 hi, hInv.hashOk i s0 hi⟩)
            (fun s0 _ x hx => absurd hx (fun hc => storedIn_newWithInitSize hc))
            (pairwise_of_inv hInv) hre
          have ht2_of_t : ∀ x, storedIn t x → storedIn t2 x := by
            intro x ⟨i, hi⟩
            exact hall2 x (getD_some_mem hi)
          have ht_of_t2 : ∀ x, storedIn t2 x → storedIn t x := by
            intro x hx
            rcases hbound2 x hx with hacc | hm
            · exact absurd hacc (fun hc => storedIn_newWithInitSize hc)
            · exact mem_some_getD hm
          obtain ⟨hInv3, hmono3, hstored3, hbound3⟩ := ih t2 na s t' hInv2
            ⟨hna, hsh, fun x hx => hnc x (ht_of_t2 x hx),
              fun x hx => hnaddr x (ht_of_t2 x hx)⟩ h
          refine ⟨hInv3, fun x hx => hmono3 x (ht2_of_t x hx), hstored3, ?_⟩
          intro x hx
          rcases hbound3 x hx with h2 | he
          · exact Or.inl (ht_of_t2 x h2)
          · exact Or.inr he
      · rw [if_neg hth] at h
        simp only [Option.some.injEq] at h
        subst h
        rw [hsh] at hp
        obtain ⟨h1, h2, h3, h4⟩ := insertAtNull_inv hInv hp rfl hsh hna
          (le_refl na) (fun i si hsi => hnaddr si ⟨i, hsi⟩)
        exact ⟨h1, h2, h3, h4⟩

/-- Specification of `get_or_insert_str`: a completed call preserves the
invariant and returns a stored symbol whose content is the key. -/
lemma getOrInsertStr_spec (oracle : Nat → Nat × Nat) (rf : Nat)
    {t : SymTable} {na : Nat} {c : List Nat} {t' : SymTable} {na' : Nat}
    {s : Sym} (hInv : TableInv t na)
    (h : getOrInsertStr oracle rf t na c = some (t', na', s)) :
    TableInv t' na' ∧ na ≤ na' ∧ storedIn t' s ∧ s.content = c ∧
    (∀ x, storedIn t x → storedIn t' x) := by
  rw [getOrInsertStr] at h
  cases hp : probeGo t.slots (originOf t (hashUtf8 c)) t.capacity c
      (probeFuel t.capacity) 0 with
  | fuelOut => rw [hp] at h; exact absurd h (by simp)
  | found idx s2 =>
    rw [hp] at h
    simp only [Prod.mk.injEq, Option.some.injEq] at h
    obtain ⟨h1, h2, h3⟩ := h
    subst h1; subst h2; subst h3
    obtain ⟨hslot, hc⟩ := probeGo_found hp
    exact ⟨hInv, le_refl na, ⟨idx, hslot⟩, hc, fun x hx => hx⟩
  | nullAt idx =>
    rw [hp] at h
    simp only [] at h
    have hnotstored := hInv.not_stored_of_nullAt hp
    by_cases hth : 4 * (t.size + 1) ≥ 3 * t.capacity
    · rw [if_pos hth] at h
      cases rf with
      | zero => exact absurd h (by simp)
      | succ rf' =>
        simp only [] at h
        cases hre : reinsertAll oracle rf' t.slots
            (newWithInitSize oracle (t.size * 4)) with
        | none => rw [hre] at h; exact absurd h (by simp)
        | some t2 =>
          rw [hre] at h
          simp only [] at h
          cases hti : tableInsert oracle rf' t2 ⟨na, hashUtf8 c, c⟩ with
          | none => rw [hti] at h; exact absurd h (by simp)
          | some t3 =>
            rw [hti] at h
            simp only [Prod.mk.injEq, Option.some.injEq] at h
            obtain ⟨h1, h2, h3⟩ := h
            subst h1; subst h2; subst h3
            have hrec : ∀ t na s t', TableInv t na → InsPre t na s →
                tableInsert oracle rf' t s = some t' → InsPost t na s t' :=
              fun t na s t' a b hc => tableInsert_spec oracle rf' t na s t' a b hc
            obtain ⟨hInv2, _, hall2, hbound2⟩ := reinsertAll_spec oracle rf' hrec
              t.slots (newWithInitSize oracle (t.size * 4)) na t2
              (newWithInitSize_inv oracle _ na)
              (fun s0 hm => by
                obtain ⟨i, hi⟩ := mem_some_getD hm
                exact ⟨hInv.fresh i s0 hi, hInv.hashOk i s0 hi⟩)
              (fun s0 _ x hx => absurd hx (fun hcc => storedIn_newWithInitSize hcc))
              (pairwise_of_inv hInv) hre
            have ht2_of_t : ∀ x, storedIn t x → storedIn t2 x := by
              intro x ⟨i, hi⟩
              exact hall2 x (getD_some_mem hi)
            have ht_of_t2 : ∀ x, storedIn t2 x → storedIn t x := by
              intro x hx
              rcases hbound2 x hx with hacc | hm
              · exact absurd hacc (fun hcc => storedIn_newWithInitSize hcc)
              · exact mem_some_getD hm
            obtain ⟨hInv3, hmono3, hstored3, _⟩ :=
              tableInsert_spec oracle rf' t2 (na + 1) ⟨na, hashUtf8 c, c⟩ t3
                (hInv2.mono (by omega))
                ⟨Nat.lt_succ_self na, rfl,
                  fun x hx => by
                    obtain ⟨i, hi⟩ := ht_of_t2 x hx
                    exact hnotstored i x hi,
                  fun x hx => by
                    obtain ⟨i, hi⟩ := ht_of_t2 x hx
                    have h5 := hInv.fresh i x hi
                    show x.addr ≠ na
                    omega⟩ hti
            exact ⟨hInv3, by omega, hstored3, rfl,
              fun x hx => hmono3 x (ht2_of_t x hx)⟩
    · rw [if_neg hth] at h
      simp only [Prod.mk.injEq, Option.some.injEq] at h
      obtain ⟨h1, h2, h3⟩ := h
      subst h1; subst h2; subst h3
      obtain ⟨h1, h2, h3, _⟩ := insertAtNull_inv (s := ⟨na, hashUtf8 c, c⟩)
        hInv hp rfl rfl (Nat.lt_succ_self na) (Nat.le_succ na)
        (fun i si hsi => by
          have h5 := hInv.fresh i si hsi
          show si.addr ≠ na
          omega)
      exact ⟨h1, Nat.le_succ na, h3, rfl, h2⟩

/-- Specification of a completed sequence of `get_or_insert` calls: the
invariant persists, each call's returned symbol is stored in the final
table, and each returned symbol's content is the call's key. -/
lemma runGetOrInsert_spec (oracle : Nat → Nat × Nat) (rf : Nat) :
    ∀ (cs : List (List Nat)) (st st' : SymTabState) (syms : List Sym),
      TableInv st.table st.nextAddr →
      runGetOrInsert oracle rf st cs = some (st', syms) →
      TableInv st'.table st'.nextAddr ∧
      syms.length = cs.length ∧
      (∀ k, k < syms.length →
        storedIn st'.table (syms.getD k ⟨0, 0, []⟩) ∧
        (syms.getD k ⟨0, 0, []⟩).content = cs.getD k []) ∧
      (∀ x, storedIn st.table x → storedIn st'.table x) := by
  intro cs
  induction cs with
  | nil =>
    intro st st' syms hInv hrun
    rw [runGetOrInsert] at hrun
    simp only [Prod.mk.injEq, Option.some.injEq] at hrun
    obtain ⟨h1, h2⟩ := hrun
    subst h1; subst h2
    exact ⟨hInv, rfl, fun k hk => absurd hk (by simp), fun x hx => hx⟩
  | cons c cs' ih =>
    intro st st' syms hInv hrun
    rw [runGetOrInsert] at hrun
    cases hstep : symGetOrInsert oracle rf st c with
    | none => rw [hstep] at hrun; exact absurd hrun (by simp)
    | some p =>
      obtain ⟨st1, s⟩ := p
      rw [hstep] at hrun
      simp only [] at hrun
      cases hrest : runGetOrInsert oracle rf st1 cs' with
      | none => rw [hrest] at hrun; exact absurd hrun (by simp)
      | some q =>
        obtain ⟨st2, syms'⟩ := q
        rw [hrest] at hrun
        simp only [Prod.mk.injEq, Option.some.injEq] at hrun
        obtain ⟨h1, h2⟩ := hrun
        subst h1; subst h2
        rw [symGetOrInsert] at hstep
        cases hg : getOrInsertStr oracle rf st.table st.nextAddr c with
        | none => rw [hg] at hstep; exact absurd hstep (by simp)
        | some r =>
          obtain ⟨t1, na1, s1⟩ := r
          rw [hg] at hstep
          simp only [Prod.mk.injEq, Option.some.injEq] at hstep
          obtain ⟨hst1, hs1⟩ := hstep
          subst hs1
          obtain ⟨hInv1, hle1, hstored1, hcont1, hmono1⟩ :=
            getOrInsertStr_spec oracle rf hInv hg
          have hInv1' : TableInv st1.table st1.nextAddr := by
            rw [← hst1]; exact hInv1
          obtain ⟨hInv2, hlen2, hprop2, hmono2⟩ := ih st1 st2 syms' hInv1' hrest
          have hmono1' : ∀ x, storedIn st.table x → storedIn st1.table x := by
            intro x hx
            rw [← hst1]
            exact hmono1 x hx
          refine ⟨hInv2, by simp [hlen2], ?_, fun x hx => hmono2 x (hmono1' x hx)⟩
          intro k hk
          cases k with
          | zero =>
            constructor
            · exact hmono2 s1 (by rw [← hst1]; exact hstored1)
            · simpa using hcont1
          | succ k' =>
            have hk' : k' < syms'.length := by
              simp only [List.length_cons] at hk
              omega
            have := hprop2 k' hk'
            simpa using this

/-!
## Claim C3

Symbol interning: across any sequence of `SymbolTable::get_or_insert`
calls, two returned symbol pointers are equal iff the two interned byte
sequences are equal.
-/

/-- C3: for every randomness oracle, resize-depth bound, initial allocator
address and sequence of `get_or_insert` calls that runs to completion from
a fresh symbol table, the symbols returned by the `i`-th and `j`-th calls
have the same address (pointer equality) if and only if the `i`-th and
`j`-th interned byte sequences are equal. -/
theorem claim_C3_symbol_interning (oracle : Nat → Nat × Nat) (rf a0 : Nat)
    (contents : List (List Nat)) (st' : SymTabState) (syms : List Sym)
    (hrun : runGetOrInsert oracle rf ⟨symbolTableNew oracle, a0⟩ contents
      = some (st', syms)) :
    ∀ i j, i < syms.length → j < syms.length →
      ((syms.getD i ⟨0, 0, []⟩).addr = (syms.getD j ⟨0, 0, []⟩).addr ↔
        contents.getD i [] = contents.getD j []) := by
  have hInv0 : TableInv (symbolTableNew oracle) a0 :=
    newWithInitSize_inv oracle 8 a0
  obtain ⟨hInv', _, hprop, _⟩ :=
    runGetOrInsert_spec oracle rf contents ⟨symbolTableNew oracle, a0⟩ st' syms
      hInv0 hrun
  intro i j hi hj
  obtain ⟨hsti, hci⟩ := hprop i hi
  obtain ⟨hstj, hcj⟩ := hprop j hj
  obtain ⟨ii, hii⟩ := hsti
  obtain ⟨jj, hjj⟩ := hstj
  constructor
  · intro haddr
    have hidx : ii = jj := hInv'.distinctAddr ii jj _ _ hii hjj haddr
    rw [hidx, hjj] at hii
    simp only [Option.some.injEq] at hii
    rw [← hci, ← hcj, hii]
  · intro hcc
    have hcont : (syms.getD i ⟨0, 0, []⟩).content
        = (syms.getD j ⟨0, 0, []⟩).content := by
      rw [hci, hcj, hcc]
    have hidx : ii = jj := hInv'.distinctContent ii jj _ _ hii hjj hcont
    rw [hidx, hjj] at hii
    simp only [Option.some.injEq] at hii
    rw [hii]

/-- Witness for C3: interning `"A"`, `"B"`, `"A"` (code points `[65]`,
`[66]`, `[65]`) in a fresh table returns symbols at addresses `1, 2, 1`:
the first and third pointers agree (equal contents), the first and second
differ (different contents). -/
theorem claim_C3_symbol_interning_witness :
    runGetOrInsert (fun _ => (0, 0)) 1 ⟨symbolTableNew (fun _ => (0, 0)), 1⟩
        [[65], [66], [65]]
      = some (⟨⟨11, 2, 1, 0, 11,
          [some ⟨2, 1107322854, [66]⟩, none, none, none, none, none, none,
            none, none, none, some ⟨1, 1090545235, [65]⟩]⟩, 3⟩,
        [⟨1, 1090545235, [65]⟩, ⟨2, 1107322854, [66]⟩,
          ⟨1, 1090545235, [65]⟩]) ∧
    ((([⟨1, 1090545235, [65]⟩, ⟨2, 1107322854, [66]⟩,
        ⟨1, 1090545235, [65]⟩] : List Sym).getD 0 ⟨0, 0, []⟩).addr
      = (([⟨1, 1090545235, [65]⟩, ⟨2, 1107322854, [66]⟩,
        ⟨1, 1090545235, [65]⟩] : List Sym).getD 2 ⟨0, 0, []⟩).addr ↔
      ([[65], [66], [65]] : List (List Nat)).getD 0 []
        = [[65], [66], [65]].getD 2 []) ∧
    ((([⟨1, 1090545235, [65]⟩, ⟨2, 1107322854, [66]⟩,
        ⟨1, 1090545235, [65]⟩] : List Sym).getD 0 ⟨0, 0, []⟩).addr
      = (([⟨1, 1090545235, [65]⟩, ⟨2, 1107322854, [66]⟩,
        ⟨1, 1090545235, [65]⟩] : List Sym).getD 1 ⟨0, 0, []⟩).addr ↔
      ([[65], [66], [65]] : List (List Nat)).getD 0 []
        = [[65], [66], [65]].getD 1 []) := by
  have heval : runGetOrInsert (fun _ => (0, 0)) 1
      ⟨symbolTableNew (fun _ => (0, 0)), 1⟩ [[65], [66], [65]]
      = some (⟨⟨11, 2, 1, 0, 11,
          [some ⟨2, 1107322854, [66]⟩, none, none, none, none, none, none,
            none, none, none, some ⟨1, 1090545235, [65]⟩]⟩, 3⟩,
        [⟨1, 1090545235, [65]⟩, ⟨2, 1107322854, [66]⟩,
          ⟨1, 1090545235, [65]⟩]) := by
    simp [runGetOrInsert, symGetOrInsert, getOrInsertStr, symbolTableNew,
      newWithInitSize, rustNextPrime, rustNextPrimeLoop, rustIsPrime, rustSqrt,
      rustSqrtAux.eq_def, probeGo, probeOffset, originOf, tableHash,
      u64OfI32Pat, hashUtf8, hashStep, probeFuel, List.range']
  refine ⟨heval, ?_, ?_⟩
  · exact claim_C3_symbol_interning (fun _ => (0, 0)) 1 1 [[65], [66], [65]]
      _ _ heval 0 2 (by decide) (by decide)
  · exact claim_C3_symbol_interning (fun _ => (0, 0)) 1 1 [[65], [66], [65]]
      _ _ heval 0 1 (by decide) (by decide)

end Rsvm
